import Mathlib

/-!
# Cinder-Var: the live variable registry (`JsonBag`) and its typed variables (`Var<T>`)

A shallow embedding of `src/src/Var.h` and `src/src/Var.cpp`.

* `std::map<std::string, V>` is an association list kept in ascending key order
  (`StdMap`), with the operations the source uses (`count`, `at`, `operator[]`,
  `emplace`, `erase`).
* A `VarBase*` is an index into a heap of variables (`World.heap`); the registry
  stores such indices and never owns the variables.
* The Cinder library (`ci::JsonTree`, `ci::toString`, `fromString`, the file
  system) is not part of the repository: the document tree is modelled from the
  specification, and the text conversions are parameters (`Lib`).
* `CI_LOG_E` appends its message to `World.log`.
-/

namespace CinderVar

/-! ## Keys: `std::string` with `operator<` -/

/-- Lexicographic comparison of two character sequences, the order of
`std::string::operator<` (byte-wise on UTF-8, which agrees with code points). -/
def ltChars : List Char → List Char → Bool
  | [], [] => false
  | [], _ :: _ => true
  | _ :: _, [] => false
  | a :: as, b :: bs =>
    if a.toNat < b.toNat then true
    else if a.toNat = b.toNat then ltChars as bs
    else false

/-- Strict order on keys used by `std::map<std::string, _>`. -/
def keyLt (a b : String) : Bool := ltChars a.data b.data

/-! ## `std::map<std::string, V>` -/

/-- A `std::map<std::string, V>`: its entries in iteration order. -/
abbrev StdMap (V : Type) := List (String × V)

namespace StdMap

variable {V : Type}

/-- Result of `map.find(k)`: the mapped value of the entry with key `k`, if any. -/
def find : StdMap V → String → Option V
  | [], _ => none
  | (k', v) :: rest, k => if k' = k then some v else find rest k

/-- Result of `map.count(k)`: 0 or 1. -/
def count (m : StdMap V) (k : String) : Nat :=
  match m.find k with
  | some _ => 1
  | none => 0

/-- Insertion of a key that is not present, at its place in ascending key order. -/
def insertNew : StdMap V → String → V → StdMap V
  | [], k, v => [(k, v)]
  | (k', v') :: rest, k, v =>
    if keyLt k k' then (k, v) :: (k', v') :: rest
    else (k', v') :: insertNew rest k v

/-- Result of `map.emplace(k, v)`: inserts only when `k` is absent. -/
def emplace (m : StdMap V) (k : String) (v : V) : StdMap V :=
  if m.count k = 0 then m.insertNew k v else m

/-- The map after evaluating `map[k]`: a default-constructed value is inserted when
`k` is absent. -/
def index (m : StdMap V) (k : String) (dflt : V) : StdMap V :=
  if m.count k = 0 then m.insertNew k dflt else m

/-- Assignment through the reference returned by `map[k]` or `map.at(k)`. -/
def assign : StdMap V → String → V → StdMap V
  | [], _, _ => []
  | (k', v') :: rest, k, v =>
    if k' = k then (k', v) :: rest else (k', v') :: assign rest k v

/-- Result of `map.erase(k)`: removes the entry with key `k`. -/
def erase : StdMap V → String → StdMap V
  | [], _ => []
  | (k', v') :: rest, k => if k' = k then rest else (k', v') :: erase rest k

/-- Keys in iteration order. -/
def keys (m : StdMap V) : List String := m.map Prod.fst

/-- The representation invariant of `std::map`: keys strictly ascending. -/
def Sorted (m : StdMap V) : Prop := m.Pairwise (fun a b => keyLt a.1 b.1 = true)

instance (m : StdMap V) : Decidable (Sorted m) := by
  unfold Sorted; infer_instance

end StdMap

/-! ## The structured document (`ci::JsonTree`) -/

/-- Modelled from the spec: `ci::JsonTree` (Cinder, not under src/), "a tree of
named nodes, arrays, and scalar leaves" whose scalars are kept as text. A node has
a key, a text value (empty for arrays) and its children in order. -/
inductive JsonTree where
  | node (key : String) (value : String) (children : List JsonTree)

namespace JsonTree

/-- Result of `getKey()`. -/
def key : JsonTree → String
  | node k _ _ => k

/-- The stored text of a leaf. -/
def value : JsonTree → String
  | node _ v _ => v

/-- Children in iteration order (`begin()` .. `end()`). -/
def children : JsonTree → List JsonTree
  | node _ _ cs => cs

/-- Default-constructed `JsonTree`. -/
def empty : JsonTree := node "" "" []

/-- Constructor `JsonTree( key, value )` with a text value. -/
def leaf (k v : String) : JsonTree := node k v []

/-- Result of `JsonTree::makeArray( key )`. -/
def makeArray (k : String) : JsonTree := node k "" []

/-- The tree after `pushBack( child )`: the child is appended. -/
def pushBack : JsonTree → JsonTree → JsonTree
  | node k v cs, c => node k v (cs ++ [c])

/-- The tree after `addChild( child )`: the child is appended. -/
def addChild (t c : JsonTree) : JsonTree := t.pushBack c

/-- First child with the given key. -/
def findChild : List JsonTree → String → Option JsonTree
  | [], _ => none
  | c :: rest, k => if c.key = k then some c else findChild rest k

/-- Result of `hasChild( key )`. -/
def hasChild (t : JsonTree) (k : String) : Bool := (findChild t.children k).isSome

end JsonTree

/-- Exceptions of `ci::JsonTree` other than the parser error: `ExcChildNotFound`
(from `getChild`) and `ExcNonConvertible` (from `getValue<T>`). -/
inductive JsonExc where
  | childNotFound
  | nonConvertible
  deriving DecidableEq, Repr

/-- Result of `getChild( key )`: throws `ExcChildNotFound` when no child has the key. -/
def JsonTree.getChild (t : JsonTree) (k : String) : Except JsonExc JsonTree :=
  match JsonTree.findChild t.children k with
  | some c => .ok c
  | none => .error .childNotFound

/-! ## Library parameters -/

/-- Modelled from the spec: the text conversions and the document reader/writer of
Cinder (`ci::toString`, `fromString` behind `getValue<T>`, `JsonTree::write`, the
parsing constructor), none of which is under src/. `F` is the type of `float`. A
conversion from text that yields `none` stands for `ExcNonConvertible`; a parse
that yields `none` stands for `ExcJsonParserError`. -/
structure Lib (F : Type) where
  boolToString : Bool → String
  intToString : Int → String
  floatToString : F → String
  boolFromString : String → Option Bool
  intFromString : String → Option Int
  floatFromString : String → Option F
  write : JsonTree → String
  parse : String → Option JsonTree

section Values

variable {F : Type}

/-- Result of `getValue<bool>()`. -/
def JsonTree.getValueBool (lib : Lib F) (t : JsonTree) : Except JsonExc Bool :=
  match lib.boolFromString t.value with
  | some b => .ok b
  | none => .error .nonConvertible

/-- Result of `getValue<int>()`. -/
def JsonTree.getValueInt (lib : Lib F) (t : JsonTree) : Except JsonExc Int :=
  match lib.intFromString t.value with
  | some i => .ok i
  | none => .error .nonConvertible

/-- Result of `getValue<float>()`. -/
def JsonTree.getValueFloat (lib : Lib F) (t : JsonTree) : Except JsonExc F :=
  match lib.floatFromString t.value with
  | some f => .ok f
  | none => .error .nonConvertible

/-- Result of `getValue<std::string>()`: the stored text itself. -/
def JsonTree.getValueString (t : JsonTree) : Except JsonExc String := .ok t.value

/-- Result of `getChild( key ).getValue<float>()`. -/
def JsonTree.getChildFloat (lib : Lib F) (t : JsonTree) (k : String) : Except JsonExc F :=
  match t.getChild k with
  | .ok c => c.getValueFloat lib
  | .error e => .error e

end Values

/-! ## Variables -/

/-- The value of a `Var<T>` for the nine instantiations of `T` that have `save` and
`load` specialisations. `ci::Color` has the three components r, g, b. -/
inductive Value (F : Type) where
  | bool (b : Bool)
  | int (i : Int)
  | float (f : F)
  | vec2 (x y : F)
  | vec3 (x y z : F)
  | vec4 (x y z w : F)
  | quat (w x y z : F)
  | color (r g b : F)
  | string (s : String)
  deriving DecidableEq, Repr

/-- The instantiation `T` of a `Var<T>`. -/
inductive Kind where
  | bool | int | float | vec2 | vec3 | vec4 | quat | color | string
  deriving DecidableEq, Repr

/-- The type `T` a value belongs to. -/
def Value.kind {F : Type} : Value F → Kind
  | .bool _ => .bool
  | .int _ => .int
  | .float _ => .float
  | .vec2 .. => .vec2
  | .vec3 .. => .vec3
  | .vec4 .. => .vec4
  | .quat .. => .quat
  | .color .. => .color
  | .string _ => .string

/-- A `Var<T>` object (`VarBase` fields included). `mVoidPtr` is the storage address
`&mValue` handed to `VarBase`; `mOwner` tells whether the owner pointer is set (the
only `JsonBag` is the singleton); `hasUpdateFn` tells whether `mUpdateFn` holds a
callback, and `updateCalls` counts how many times that callback has been invoked.
The editor hints `mMin`, `mMax` play no part in the registry and are left out. -/
structure Var (F : Type) where
  mValue : Value F
  mVoidPtr : Nat
  mOwner : Bool
  hasUpdateFn : Bool
  updateCalls : Nat
  deriving DecidableEq, Repr

section VarOps

variable {F : Type}

/-- `VarBase::setOwner`. -/
def Var.setOwner (v : Var F) : Var F := { v with mOwner := true }

/-- `VarBase::getTarget`. -/
def Var.getTarget (v : Var F) : Nat := v.mVoidPtr

/-- `VarBase::callUpdateFn`: invokes the callback when one is set. -/
def Var.callUpdateFn (v : Var F) : Var F :=
  if v.hasUpdateFn then { v with updateCalls := v.updateCalls + 1 } else v

/-- `Var<T>::update`: stores the value, then calls the update function (the
comparison with the old value is commented out in the source). -/
def Var.update (v : Var F) (value : Value F) : Var F :=
  Var.callUpdateFn { v with mValue := value }

/-- `Var<T>::operator=`. -/
def Var.assign (v : Var F) (value : Value F) : Var F := v.update value

/-- `Var<T>::save( name, tree )` for each specialisation: the tree after the call. -/
def Var.save (lib : Lib F) (v : Var F) (name : String) (tree : JsonTree) : JsonTree :=
  match v.mValue with
  | .bool b => tree.addChild (JsonTree.leaf name (lib.boolToString b))
  | .int i => tree.addChild (JsonTree.leaf name (lib.intToString i))
  | .float f => tree.addChild (JsonTree.leaf name (lib.floatToString f))
  | .vec2 x y =>
    let a := JsonTree.makeArray name
    let a := a.pushBack (JsonTree.leaf "x" (lib.floatToString x))
    let a := a.pushBack (JsonTree.leaf "y" (lib.floatToString y))
    tree.addChild a
  | .vec3 x y z =>
    let a := JsonTree.makeArray name
    let a := a.pushBack (JsonTree.leaf "x" (lib.floatToString x))
    let a := a.pushBack (JsonTree.leaf "y" (lib.floatToString y))
    let a := a.pushBack (JsonTree.leaf "z" (lib.floatToString z))
    tree.addChild a
  | .vec4 x y z w =>
    let a := JsonTree.makeArray name
    let a := a.pushBack (JsonTree.leaf "x" (lib.floatToString x))
    let a := a.pushBack (JsonTree.leaf "y" (lib.floatToString y))
    let a := a.pushBack (JsonTree.leaf "z" (lib.floatToString z))
    let a := a.pushBack (JsonTree.leaf "w" (lib.floatToString w))
    tree.addChild a
  | .quat w x y z =>
    let a := JsonTree.makeArray name
    let a := a.pushBack (JsonTree.leaf "w" (lib.floatToString w))
    let a := a.pushBack (JsonTree.leaf "x" (lib.floatToString x))
    let a := a.pushBack (JsonTree.leaf "y" (lib.floatToString y))
    let a := a.pushBack (JsonTree.leaf "z" (lib.floatToString z))
    tree.addChild a
  | .color r g b =>
    let a := JsonTree.makeArray name
    let a := a.pushBack (JsonTree.leaf "r" (lib.floatToString r))
    let a := a.pushBack (JsonTree.leaf "g" (lib.floatToString g))
    let a := a.pushBack (JsonTree.leaf "b" (lib.floatToString b))
    tree.addChild a
  | .string s => tree.addChild (JsonTree.leaf name s)

/-- The value `Var<T>::load( iter )` reads from a document node before handing it to
`update`, or the exception thrown on the way. -/
def Var.decode (lib : Lib F) (v : Var F) (item : JsonTree) : Except JsonExc (Value F) :=
  match v.mValue with
  | .bool _ =>
    match item.getValueBool lib with
    | .error e => .error e
    | .ok b => .ok (.bool b)
  | .int _ =>
    match item.getValueInt lib with
    | .error e => .error e
    | .ok i => .ok (.int i)
  | .float _ =>
    match item.getValueFloat lib with
    | .error e => .error e
    | .ok f => .ok (.float f)
  | .vec2 _ _ =>
    match item.getChildFloat lib "x" with
    | .error e => .error e
    | .ok x =>
      match item.getChildFloat lib "y" with
      | .error e => .error e
      | .ok y => .ok (.vec2 x y)
  | .vec3 _ _ _ =>
    match item.getChildFloat lib "x" with
    | .error e => .error e
    | .ok x =>
      match item.getChildFloat lib "y" with
      | .error e => .error e
      | .ok y =>
        match item.getChildFloat lib "z" with
        | .error e => .error e
        | .ok z => .ok (.vec3 x y z)
  | .vec4 _ _ _ _ =>
    match item.getChildFloat lib "x" with
    | .error e => .error e
    | .ok x =>
      match item.getChildFloat lib "y" with
      | .error e => .error e
      | .ok y =>
        match item.getChildFloat lib "z" with
        | .error e => .error e
        | .ok z =>
          match item.getChildFloat lib "w" with
          | .error e => .error e
          | .ok w => .ok (.vec4 x y z w)
  | .quat _ _ _ _ =>
    match item.getChildFloat lib "w" with
    | .error e => .error e
    | .ok w =>
      match item.getChildFloat lib "x" with
      | .error e => .error e
      | .ok x =>
        match item.getChildFloat lib "y" with
        | .error e => .error e
        | .ok y =>
          match item.getChildFloat lib "z" with
          | .error e => .error e
          | .ok z => .ok (.quat w x y z)
  | .color _ _ _ =>
    match item.getChildFloat lib "r" with
    | .error e => .error e
    | .ok r =>
      match item.getChildFloat lib "g" with
      | .error e => .error e
      | .ok g =>
        match item.getChildFloat lib "b" with
        | .error e => .error e
        | .ok b => .ok (.color r g b)
  | .string _ =>
    match item.getValueString with
    | .error e => .error e
    | .ok s => .ok (.string s)

/-- `Var<T>::load( iter )`: the variable after the call, or the exception that
leaves the call (in which case the variable was not touched). -/
def Var.load (lib : Lib F) (v : Var F) (item : JsonTree) : Except JsonExc (Var F) :=
  match v.decode lib item with
  | .ok value => .ok (v.update value)
  | .error e => .error e

end VarOps

/-! ## The registry -/

/-- The fields of `JsonBag`. `mItems` maps a group name to the map from variable name
to variable (a heap index standing for the `VarBase*`). -/
structure JsonBag where
  mItems : StdMap (StdMap Nat)
  mJsonFilePath : String
  mVersion : Int
  mIsLoaded : Bool
  mIsLive : Bool
  deriving DecidableEq, Repr

/-- The state a registry operation runs in: the singleton bag, the variables the
application owns (by heap index), the error log written by `CI_LOG_E` (oldest
first), the file system (path to content, `none` when no file exists) and the
paths the watchdog is subscribed to. -/
structure World (F : Type) where
  bag : JsonBag
  heap : Nat → Var F
  log : List String
  files : String → Option String
  watched : List String

/-- The state when a call ends, with the exception that left the call, if any. -/
structure Outcome (F : Type) where
  world : World F
  exc : Option JsonExc

section Registry

variable {F : Type}

/-- The bag built by `JsonBag::JsonBag()`. -/
def JsonBag.init : JsonBag :=
  { mItems := [], mJsonFilePath := "", mVersion := 0, mIsLoaded := false, mIsLive := true }

/-- The heap after writing variable `v` at index `p`. -/
def setVar (heap : Nat → Var F) (p : Nat) (v : Var F) : Nat → Var F :=
  fun q => if q = p then v else heap q

/-- `CI_LOG_E( msg )`. -/
def World.logE (w : World F) (msg : String) : World F :=
  { w with log := w.log ++ [msg] }

/-- The variable registered under `(group, name)`, if any. -/
def lookup (items : StdMap (StdMap Nat)) (group name : String) : Option Nat :=
  match items.find group with
  | some g => g.find name
  | none => none

/-- `JsonBag::emplace( var, name, groupName )`. Evaluating `mItems[groupName]`
creates the group when it does not exist yet. -/
def JsonBag.emplace (w : World F) (var : Nat) (name groupName : String) : World F :=
  let items1 := w.bag.mItems.index groupName []
  let group := (items1.find groupName).getD []
  if group.count name ≠ 0 then
    World.logE { w with bag := { w.bag with mItems := items1 } }
      ("Bag already contains '" ++ name ++ "' in group '" ++ groupName ++ "', not adding.")
  else
    { w with
      bag := { w.bag with mItems := items1.assign groupName (group.emplace name var) }
      heap := setVar w.heap var (w.heap var).setOwner }

/-- The inner loop of `JsonBag::removeTarget`: the group after `group.erase( it )` at
the first entry whose variable has the given target, or `none` when the loop ends
without a match. -/
def eraseTarget (heap : Nat → Var F) (target : Nat) : StdMap Nat → Option (StdMap Nat)
  | [] => none
  | (n, p) :: rest =>
    if (heap p).getTarget = target then some rest
    else (eraseTarget heap target rest).map (fun r => (n, p) :: r)

/-- The outer loop of `JsonBag::removeTarget` over the groups not yet visited
(`todo`), with the groups already visited (`seen`, in order): the items after the
removal, or `none` when no variable has the target. The group is changed in place
through the reference `kv.second`; an emptied group is erased by key. -/
def removeLoop (heap : Nat → Var F) (target : Nat) :
    StdMap (StdMap Nat) → StdMap (StdMap Nat) → Option (StdMap (StdMap Nat))
  | _, [] => none
  | seen, (groupName, group) :: todo =>
    match eraseTarget heap target group with
    | some group1 =>
      let items1 := seen ++ (groupName, group1) :: todo
      if group1.isEmpty then some (StdMap.erase items1 groupName) else some items1
    | none => removeLoop heap target (seen ++ [(groupName, group)]) todo

/-- `JsonBag::removeTarget( target )`; `none` is the null pointer. -/
def JsonBag.removeTarget (w : World F) (target : Option Nat) : World F :=
  match target with
  | none => w
  | some t =>
    match removeLoop w.heap t [] w.bag.mItems with
    | some items1 => { w with bag := { w.bag with mItems := items1 } }
    | none => w.logE "Target not found."

/-- The group node `JsonBag::save` builds for one group: the array named after the
group, to which each variable of the group adds its node in turn. -/
def saveGroup (lib : Lib F) (heap : Nat → Var F) (groupName : String) (group : StdMap Nat) :
    JsonTree :=
  group.foldl (fun jsonGroup item => (heap item.2).save lib item.1 jsonGroup)
    (JsonTree.makeArray groupName)

/-- The document `JsonBag::save` builds before writing it. -/
def JsonBag.buildDoc (lib : Lib F) (w : World F) : JsonTree :=
  let doc := w.bag.mItems.foldl
    (fun doc group => doc.pushBack (saveGroup lib w.heap group.1 group.2)) JsonTree.empty
  doc.addChild (JsonTree.leaf "version" (lib.intToString w.bag.mVersion))

/-- `JsonBag::save()`. `none` is the failed `CI_ASSERT` when the backing file does
not exist. -/
def JsonBag.save (lib : Lib F) (w : World F) : Option (World F) :=
  match w.files w.bag.mJsonFilePath with
  | none => none
  | some _ =>
    some { w with
      files := fun q =>
        if q = w.bag.mJsonFilePath then some (lib.write (JsonBag.buildDoc lib w))
        else w.files q }

/-- The loop of `JsonBag::load` over the items of one document group, with
`groupItems` the registered variables of that group. -/
def loadItems (lib : Lib F) (groupItems : StdMap Nat) : List JsonTree → World F → Outcome F
  | [], w => ⟨w, none⟩
  | item :: rest, w =>
    match groupItems.find item.key with
    | some p =>
      match (w.heap p).load lib item with
      | .ok v => loadItems lib groupItems rest { w with heap := setVar w.heap p v }
      | .error e => ⟨w, some e⟩
    | none => loadItems lib groupItems rest (w.logE ("No item named " ++ item.key))

/-- The loop of `JsonBag::load` over the top-level nodes of the document. -/
def loadGroups (lib : Lib F) : List JsonTree → World F → Outcome F
  | [], w => ⟨w, none⟩
  | jsonGroup :: rest, w =>
    match w.bag.mItems.find jsonGroup.key with
    | some groupItems =>
      match loadItems lib groupItems jsonGroup.children w with
      | ⟨w1, none⟩ => loadGroups lib rest w1
      | ⟨w1, some e⟩ => ⟨w1, some e⟩
    | none =>
      if jsonGroup.key ≠ "version" then
        loadGroups lib rest (w.logE ("No group named " ++ jsonGroup.key))
      else loadGroups lib rest w

/-- The body of the `try` block of `JsonBag::load` once the document is parsed. -/
def loadDoc (lib : Lib F) (doc : JsonTree) (w : World F) : Outcome F :=
  match JsonTree.findChild doc.children "version" with
  | some c =>
    match c.getValueInt lib with
    | .ok i => loadGroups lib doc.children { w with bag := { w.bag with mVersion := i } }
    | .error e => ⟨w, some e⟩
  | none => loadGroups lib doc.children w

/-- The statement `mIsLoaded = true`. -/
def World.markLoaded (w : World F) : World F :=
  { w with bag := { w.bag with mIsLoaded := true } }

/-- `JsonBag::load()`. Only `ExcJsonParserError` is caught; any other exception
leaves the call before `mIsLoaded` is set. -/
def JsonBag.load (lib : Lib F) (w : World F) : Outcome F :=
  match w.files w.bag.mJsonFilePath with
  | none => ⟨w, none⟩
  | some text =>
    match lib.parse text with
    | none => ⟨(w.logE "Failed to parse json file.").markLoaded, none⟩
    | some doc =>
      match loadDoc lib doc w with
      | ⟨w1, none⟩ => ⟨w1.markLoaded, none⟩
      | ⟨w1, some e⟩ => ⟨w1, some e⟩

end Registry

/-! ## Construction and destruction of variables -/

section Lifetime

variable {F : Type}

/-- `Var<T>::Var( value, name, groupName )` for the object at heap index `p` whose
`mValue` lives at address `addr`: `VarBase{ &mValue }` stores the address and a null
owner, then the variable registers itself with the bag. -/
def Var.construct (w : World F) (p : Nat) (value : Value F) (addr : Nat)
    (name groupName : String) : World F :=
  JsonBag.emplace
    { w with
      heap := setVar w.heap p
        { mValue := value, mVoidPtr := addr, mOwner := false, hasUpdateFn := false,
          updateCalls := 0 } }
    p name groupName

/-- `VarBase::~VarBase()` for the object at heap index `p`. -/
def VarBase.destroy (w : World F) (p : Nat) : World F :=
  if (w.heap p).mOwner then JsonBag.removeTarget w (some (w.heap p).mVoidPtr) else w

/-- A call the application makes on the items map, or a change it makes to one of its
variables in between. -/
inductive RegOp (F : Type) where
  | emplace (var : Nat) (name groupName : String)
  | removeTarget (target : Option Nat)
  | poke (p : Nat) (v : Var F)

/-- The state after one such call. -/
def RegOp.apply (w : World F) : RegOp F → World F
  | .emplace var name groupName => JsonBag.emplace w var name groupName
  | .removeTarget target => JsonBag.removeTarget w target
  | .poke p v => { w with heap := setVar w.heap p v }

/-- The state after a sequence of such calls. -/
def runOps (w : World F) (ops : List (RegOp F)) : World F :=
  ops.foldl RegOp.apply w

end Lifetime

/-! ## File path and live mode -/

section Watching

variable {F : Type}

/-- Modelled from the spec: `wd::watch( path, callback )` of the Watch Service (not
under src/), "subscribe(path, onChange)". `watched` lists the subscriptions in
force in the order they were made. -/
def wdWatch (w : World F) (path : String) : World F :=
  { w with watched := w.watched ++ [path] }

/-- Modelled from the spec: `wd::unwatch( path )`, "unsubscribe(path)". -/
def wdUnwatch (w : World F) (path : String) : World F :=
  { w with watched := w.watched.filter (fun q => q ≠ path) }

/-- Modelled from the spec: `wd::unwatchAll()`, "unsubscribeAll()". -/
def wdUnwatchAll (w : World F) : World F :=
  { w with watched := [] }

/-- `JsonBag::setFilepath( path )`. `canCreate` tells for which paths the
`std::ofstream` can create a file. -/
def JsonBag.setFilepath (canCreate : String → Bool) (w : World F) (path : String) : World F :=
  if w.bag.mJsonFilePath ≠ "" ∧ w.bag.mJsonFilePath = path then w
  else
    let w1 : World F := { w with bag := { w.bag with mJsonFilePath := path } }
    let w2 : World F :=
      match w1.files path with
      | some _ => w1
      | none =>
        if canCreate path then
          { w1 with files := fun q => if q = path then some "" else w1.files q }
        else w1
    if w2.bag.mIsLive then wdWatch w2 path else w2

/-- `JsonBag::unwatch()`. -/
def JsonBag.unwatch (w : World F) : World F :=
  if w.bag.mIsLive then wdUnwatch w w.bag.mJsonFilePath else w

/-- `JsonBag::setIsLive( live )`. -/
def JsonBag.setIsLive (w : World F) (live : Bool) : World F :=
  let w1 : World F := { w with bag := { w.bag with mIsLive := live } }
  if w1.bag.mIsLive then w1 else wdUnwatchAll w1

/-- A call on the file path or the live mode of the registry. -/
inductive LiveOp where
  | setFilepath (path : String)
  | setIsLive (live : Bool)
  | unwatch
  deriving DecidableEq, Repr

/-- The state after one such call. -/
def LiveOp.apply (canCreate : String → Bool) (w : World F) : LiveOp → World F
  | .setFilepath path => JsonBag.setFilepath canCreate w path
  | .setIsLive live => JsonBag.setIsLive w live
  | .unwatch => JsonBag.unwatch w

/-- The state after a sequence of such calls. -/
def runLive (canCreate : String → Bool) (w : World F) (ops : List LiveOp) : World F :=
  ops.foldl (LiveOp.apply canCreate) w

end Watching

/-! ## Spec-level views of the registry and of the document -/

/-- All registered entries `(group, name, variable)` in iteration order: groups in
stored order, the variables of each group in stored order. -/
def entries : StdMap (StdMap Nat) → List (String × String × Nat)
  | [] => []
  | (g, group) :: rest => group.map (fun e => (g, e.1, e.2)) ++ entries rest

/-- The variables that are registered, in iteration order. -/
def registered (items : StdMap (StdMap Nat)) : List Nat :=
  (entries items).map (fun e => e.2.2)

/-- The representation invariant of `mItems`: the group keys are strictly ascending,
and so are the variable names of every group. -/
def WF (items : StdMap (StdMap Nat)) : Prop :=
  StdMap.Sorted items ∧ ∀ e ∈ items, StdMap.Sorted e.2

instance (items : StdMap (StdMap Nat)) : Decidable (WF items) := by
  unfold WF; infer_instance

section SpecViews

variable {F : Type}

/-- The encoding of a variable as the spec words it: a scalar leaf keyed by the name
for bool, int, float and string; for a composite, an array keyed by the name whose
children are the named component leaves in order. -/
def encode (lib : Lib F) (v : Var F) (name : String) : JsonTree :=
  match v.mValue with
  | .bool b => .node name (lib.boolToString b) []
  | .int i => .node name (lib.intToString i) []
  | .float f => .node name (lib.floatToString f) []
  | .vec2 x y =>
    .node name "" [.node "x" (lib.floatToString x) [], .node "y" (lib.floatToString y) []]
  | .vec3 x y z =>
    .node name "" [.node "x" (lib.floatToString x) [], .node "y" (lib.floatToString y) [],
      .node "z" (lib.floatToString z) []]
  | .vec4 x y z w =>
    .node name "" [.node "x" (lib.floatToString x) [], .node "y" (lib.floatToString y) [],
      .node "z" (lib.floatToString z) [], .node "w" (lib.floatToString w) []]
  | .quat w x y z =>
    .node name "" [.node "w" (lib.floatToString w) [], .node "x" (lib.floatToString x) [],
      .node "y" (lib.floatToString y) [], .node "z" (lib.floatToString z) []]
  | .color r g b =>
    .node name "" [.node "r" (lib.floatToString r) [], .node "g" (lib.floatToString g) [],
      .node "b" (lib.floatToString b) []]
  | .string s => .node name s []

/-- The array node of one group as the spec words it: keyed by the group name, holding
the encodings of the group's variables in their stored order. -/
def groupNode (lib : Lib F) (heap : Nat → Var F) (g : String × StdMap Nat) : JsonTree :=
  .node g.1 "" (g.2.map (fun e => encode lib (heap e.2) e.1))

/-- The leaf keyed `version` that holds the schema version. -/
def versionLeaf (lib : Lib F) (version : Int) : JsonTree :=
  .node "version" (lib.intToString version) []

/-- A float whose text form converts back to itself. -/
def ReadsBack (lib : Lib F) (f : F) : Prop :=
  lib.floatFromString (lib.floatToString f) = some f

/-- A value all of whose scalar components convert back from their text form to
themselves. -/
def Lossless (lib : Lib F) : Value F → Prop
  | .bool b => lib.boolFromString (lib.boolToString b) = some b
  | .int i => lib.intFromString (lib.intToString i) = some i
  | .float f => ReadsBack lib f
  | .vec2 x y => ReadsBack lib x ∧ ReadsBack lib y
  | .vec3 x y z => ReadsBack lib x ∧ ReadsBack lib y ∧ ReadsBack lib z
  | .vec4 x y z w => ReadsBack lib x ∧ ReadsBack lib y ∧ ReadsBack lib z ∧ ReadsBack lib w
  | .quat w x y z => ReadsBack lib w ∧ ReadsBack lib x ∧ ReadsBack lib y ∧ ReadsBack lib z
  | .color r g b => ReadsBack lib r ∧ ReadsBack lib g ∧ ReadsBack lib b
  | .string _ => True

instance [DecidableEq F] (lib : Lib F) (v : Value F) : Decidable (Lossless lib v) := by
  cases v <;> (unfold Lossless ReadsBack; infer_instance)

/-- The float components of a composite value in the order they are written; empty
for the scalar types. -/
def components : Value F → List F
  | .vec2 x y => [x, y]
  | .vec3 x y z => [x, y, z]
  | .vec4 x y z w => [x, y, z, w]
  | .quat w x y z => [w, x, y, z]
  | .color r g b => [r, g, b]
  | _ => []

/-- The text a scalar value is written as; empty for the composite types. -/
def scalarText (lib : Lib F) : Value F → String
  | .bool b => lib.boolToString b
  | .int i => lib.intToString i
  | .float f => lib.floatToString f
  | .string s => s
  | _ => ""

/-- The names of the components a composite value is read from, in the order they are
read; empty for the scalar types. -/
def componentNames : Kind → List String
  | .vec2 => ["x", "y"]
  | .vec3 => ["x", "y", "z"]
  | .vec4 => ["x", "y", "z", "w"]
  | .quat => ["w", "x", "y", "z"]
  | .color => ["r", "g", "b"]
  | _ => []

/-- Whether the node has a child with the given name whose text converts to a float. -/
def componentOk (lib : Lib F) (item : JsonTree) (k : String) : Bool :=
  match JsonTree.findChild item.children k with
  | some c => (lib.floatFromString c.value).isSome
  | none => false

/-- Whether the text of the node itself converts to the scalar type of the variable
(always for a string, never asked of a composite). -/
def scalarOk (lib : Lib F) (kind : Kind) (item : JsonTree) : Bool :=
  match kind with
  | .bool => (lib.boolFromString item.value).isSome
  | .int => (lib.intFromString item.value).isSome
  | .float => (lib.floatFromString item.value).isSome
  | _ => true

/-- The invariant of the items map: the `std::map` representation invariant, and no
group without a variable. -/
def RegInv (items : StdMap (StdMap Nat)) : Prop :=
  WF items ∧ ∀ e ∈ items, e.2 ≠ []

/-- The error lines a load writes for the items of one document group whose group is
registered: one line for each item whose name is not registered in the group. -/
def itemErrors (groupItems : StdMap Nat) (children : List JsonTree) : List String :=
  (children.filter (fun item => (groupItems.find item.key).isNone)).map
    (fun item => "No item named " ++ item.key)

/-- The error lines a load writes for a list of top-level nodes, in document order:
for a registered group the lines of its unknown items, for any other node except
`version` one line. -/
def loadErrors (items : StdMap (StdMap Nat)) : List JsonTree → List String
  | [] => []
  | node :: rest =>
    (match items.find node.key with
      | some groupItems => itemErrors groupItems node.children
      | none => if node.key = "version" then [] else ["No group named " ++ node.key])
    ++ loadErrors items rest

/-- The items of registered groups whose name is not registered in the group, in
document order. -/
def unknownItems (items : StdMap (StdMap Nat)) : List JsonTree → List JsonTree
  | [] => []
  | node :: rest =>
    (match items.find node.key with
      | some groupItems => node.children.filter (fun item => (groupItems.find item.key).isNone)
      | none => [])
    ++ unknownItems items rest

/-- The top-level nodes other than `version` whose key is not a registered group. -/
def unknownGroups (items : StdMap (StdMap Nat)) (nodes : List JsonTree) : List JsonTree :=
  nodes.filter (fun node => (items.find node.key).isNone && decide (node.key ≠ "version"))

/-- The items of one document group whose name is registered, each with the variable
it is registered to. -/
def itemTargets (groupItems : StdMap Nat) (children : List JsonTree) : List (Nat × JsonTree) :=
  children.filterMap (fun item => (groupItems.find item.key).map (fun p => (p, item)))

/-- Every document item whose group and name are both registered, with the variable
it is registered to, in document order. -/
def loadTargets (items : StdMap (StdMap Nat)) : List JsonTree → List (Nat × JsonTree)
  | [] => []
  | node :: rest =>
    (match items.find node.key with
      | some groupItems => itemTargets groupItems node.children
      | none => [])
    ++ loadTargets items rest

/-- The heap after decoding each listed item into its variable in turn (the value is
stored and the change callback called); an item that does not decode is passed over. -/
def applyItems (lib : Lib F) : List (Nat × JsonTree) → (Nat → Var F) → (Nat → Var F)
  | [], heap => heap
  | (p, item) :: rest, heap =>
    match (heap p).decode lib item with
    | .ok value => applyItems lib rest (setVar heap p ((heap p).update value))
    | .error _ => applyItems lib rest heap

/-- Whether `Var<T>::load` on the node returns normally for the variable. -/
def decodes (lib : Lib F) (v : Var F) (item : JsonTree) : Bool :=
  match v.decode lib item with
  | .ok _ => true
  | .error _ => false

/-- Whether the document has no node keyed `version`, or the first such node holds
text that converts to an integer. -/
def versionReadable (lib : Lib F) (doc : JsonTree) : Bool :=
  match JsonTree.findChild doc.children "version" with
  | some c => (lib.intFromString c.value).isSome
  | none => true

/-- The schema version after reading the document: the value of the first node keyed
`version` when there is one and it converts, else the given one. -/
def readVersion (lib : Lib F) (doc : JsonTree) (version : Int) : Int :=
  match JsonTree.findChild doc.children "version" with
  | some c => (lib.intFromString c.value).getD version
  | none => version

end SpecViews

/-! ## A concrete library instance and concrete states, for evaluating examples -/

/-- Decimal digits read left to right; `none` on a character that is not a digit. -/
def readDigits : List Char → Nat → Option Nat
  | [], acc => some acc
  | c :: cs, acc =>
    if 48 ≤ c.toNat ∧ c.toNat ≤ 57 then readDigits cs (acc * 10 + (c.toNat - 48)) else none

/-- A decimal integer read from text; the empty text and any text with a character
that is not a digit (a leading minus sign apart) are not convertible. -/
def readInt (s : String) : Option Int :=
  match s.data with
  | [] => none
  | '-' :: cs => if cs = [] then none else (readDigits cs 0).map (fun n => - (n : Int))
  | cs => (readDigits cs 0).map (fun n => (n : Int))

/-- A decimal integer as text. -/
def showInt (i : Int) : String :=
  match i with
  | .ofNat n => String.mk (Nat.toDigits 10 n)
  | .negSucc n => String.mk ('-' :: Nat.toDigits 10 (n + 1))

/-- A library instance in which `float` is restricted to integral values, numbers
are written in decimal, booleans as `1` and `0`, and the only file content that
parses is `ok`, which reads as the document given. -/
def demoLib (doc : JsonTree) : Lib Int :=
  { boolToString := fun b => if b then "1" else "0"
    intToString := showInt
    floatToString := showInt
    boolFromString := fun s => if s = "1" then some true else if s = "0" then some false else none
    intFromString := readInt
    floatFromString := readInt
    write := fun _ => "ok"
    parse := fun s => if s = "ok" then some doc else none }

/-- A variable with the given value and storage address, no owner and no callback. -/
def mkVar (value : Value Int) (addr : Nat) : Var Int :=
  { mValue := value, mVoidPtr := addr, mOwner := false, hasUpdateFn := false, updateCalls := 0 }

/-- The variables of the examples. -/
def demoHeap : Nat → Var Int := fun p =>
  if p = 1 then mkVar (.float 12) 101
  else if p = 2 then mkVar (.color 1 2 3) 102
  else if p = 3 then mkVar (.int 5) 103
  else if p = 4 then mkVar (.int 8) 104
  else if p = 5 then { mkVar (.float 0) 105 with hasUpdateFn := true }
  else if p = 6 then mkVar (.color 0 0 0) 106
  else mkVar (.bool false) (200 + p)

/-- A state of the examples: the given items and heap, the backing file
`live_vars.json` present with content `ok`. -/
def demoWorld (items : StdMap (StdMap Nat)) (heap : Nat → Var Int) : World Int :=
  { bag := { JsonBag.init with mItems := items, mJsonFilePath := "live_vars.json" }
    heap := heap
    log := []
    files := fun q => if q = "live_vars.json" then some "ok" else none
    watched := [] }

/-- A document whose item `n` of group `g` holds text that is not a number, followed
by a well-formed item `m`. -/
def badItemDoc : JsonTree :=
  .node "" "" [.node "g" "" [.node "n" "abc" [], .node "m" "9" []], .node "version" "0" []]

/-- A document with an unknown item `zz` between two known items of group `g`, and an
unknown group `h` before the version leaf. -/
def tolerantDoc : JsonTree :=
  .node "" ""
    [.node "g" "" [.node "n" "7" [], .node "zz" "1" [], .node "m" "9" []],
     .node "h" "" [.node "n" "1" []],
     .node "version" "3" []]

/-- Freshly constructed variables of the same types as those of `demoHeap`. -/
def freshHeap : Nat → Var Int := fun p =>
  if p = 1 then mkVar (.float 0) 101
  else if p = 2 then mkVar (.color 0 0 0) 102
  else if p = 3 then mkVar (.int 0) 103
  else if p = 4 then mkVar (.int 0) 104
  else demoHeap p

/-- The empty path cannot be created; every other path can. -/
def demoCanCreate (path : String) : Bool := decide (path ≠ "")

/-- The state at process start: the bag as constructed, no file, nothing watched. -/
def startWorld : World Int :=
  { bag := JsonBag.init, heap := demoHeap, log := [], files := fun _ => none, watched := [] }

/-- A document node for a color that lacks the component `g`. -/
def noGreenItem : JsonTree :=
  .node "color" "" [.node "r" "4" [], .node "b" "6" []]
/-! ## Lemmas on `StdMap` -/

namespace StdMap

variable {V : Type}

theorem count_eq_zero_iff (m : StdMap V) (k : String) : m.count k = 0 ↔ m.find k = none := by
  unfold count
  cases h : m.find k <;> simp

theorem find_insertNew_self (m : StdMap V) (k : String) (v : V) (h : m.find k = none) :
    (m.insertNew k v).find k = some v := by
  induction m with
  | nil => simp [insertNew, find]
  | cons e rest ih =>
    obtain ⟨k', v'⟩ := e
    simp only [find] at h
    by_cases hk : k' = k
    · simp [hk] at h
    · simp only [hk, if_false] at h
      simp only [insertNew]
      by_cases hlt : keyLt k k' = true
      · simp [hlt, find]
      · simp [hlt, find, hk, ih h]

theorem find_insertNew_ne (m : StdMap V) (k k2 : String) (v : V) (hne : k2 ≠ k) :
    (m.insertNew k v).find k2 = m.find k2 := by
  induction m with
  | nil => simp [insertNew, find, Ne.symm hne]
  | cons e rest ih =>
    obtain ⟨k', v'⟩ := e
    simp only [insertNew]
    by_cases hlt : keyLt k k' = true
    · simp [hlt, find, Ne.symm hne]
    · simp [hlt, find, ih]

theorem find_assign_self (m : StdMap V) (k : String) (v : V) (h : m.find k ≠ none) :
    (m.assign k v).find k = some v := by
  induction m with
  | nil => simp [find] at h
  | cons e rest ih =>
    obtain ⟨k', v'⟩ := e
    simp only [assign]
    by_cases hk : k' = k
    · simp [hk, find]
    · simp only [find, hk, if_false] at h
      simp [hk, find, ih h]

theorem find_assign_ne (m : StdMap V) (k k2 : String) (v : V) (hne : k2 ≠ k) :
    (m.assign k v).find k2 = m.find k2 := by
  induction m with
  | nil => simp [assign, find]
  | cons e rest ih =>
    obtain ⟨k', v'⟩ := e
    simp only [assign]
    by_cases hk : k' = k
    · subst hk
      simp [find, Ne.symm hne]
    · by_cases hk2 : k' = k2
      · subst hk2
        simp [hk, find]
      · simp [hk, find, hk2, ih]

theorem index_of_find (m : StdMap V) (k : String) (d v : V) (h : m.find k = some v) :
    m.index k d = m := by
  simp [index, count, h]

end StdMap

theorem ltChars_irrefl (l : List Char) : ltChars l l = false := by
  induction l with
  | nil => rfl
  | cons c cs ih => simp [ltChars, ih]

theorem keyLt_irrefl (a : String) : keyLt a a = false := ltChars_irrefl a.data

namespace StdMap

variable {V : Type}

theorem find_append_cons_self (a b : StdMap V) (k : String) (v : V)
    (ha : ∀ e ∈ a, e.1 ≠ k) : find (a ++ (k, v) :: b) k = some v := by
  induction a with
  | nil => simp [find]
  | cons e rest ih =>
    obtain ⟨k', v'⟩ := e
    have hk : k' ≠ k := ha (k', v') (by simp)
    simp only [List.cons_append, find, hk, if_false]
    exact ih (fun e he => ha e (by simp [he]))

theorem find_append_cons_ne (a b : StdMap V) (k k2 : String) (v : V) (h : k2 ≠ k) :
    find (a ++ (k, v) :: b) k2 = find (a ++ b) k2 := by
  induction a with
  | nil => simp [find, Ne.symm h]
  | cons e rest ih =>
    obtain ⟨k', v'⟩ := e
    simp only [List.cons_append, find]
    split
    · rfl
    · exact ih

theorem find_append_none (a b : StdMap V) (k : String)
    (ha : ∀ e ∈ a, e.1 ≠ k) (hb : ∀ e ∈ b, e.1 ≠ k) : find (a ++ b) k = none := by
  induction a with
  | nil =>
    induction b with
    | nil => rfl
    | cons e rest ih =>
      obtain ⟨k', v'⟩ := e
      have hk : k' ≠ k := hb (k', v') (by simp)
      simp only [List.nil_append, find, hk, if_false]
      exact ih (fun e he => hb e (by simp [he]))
  | cons e rest ih =>
    obtain ⟨k', v'⟩ := e
    have hk : k' ≠ k := ha (k', v') (by simp)
    simp only [List.cons_append, find, hk, if_false]
    exact ih (fun e he => ha e (by simp [he]))

theorem erase_append_cons (a b : StdMap V) (k : String) (v : V)
    (ha : ∀ e ∈ a, e.1 ≠ k) : erase (a ++ (k, v) :: b) k = a ++ b := by
  induction a with
  | nil => simp [erase]
  | cons e rest ih =>
    obtain ⟨k', v'⟩ := e
    have hk : k' ≠ k := ha (k', v') (by simp)
    simp only [List.cons_append, erase, hk, if_false]
    exact congrArg _ (ih (fun e he => ha e (by simp [he])))

theorem Sorted.keys_ne {a b : StdMap V} {k : String} {v : V}
    (h : Sorted (a ++ (k, v) :: b)) : (∀ e ∈ a, e.1 ≠ k) ∧ (∀ e ∈ b, e.1 ≠ k) := by
  unfold Sorted at h
  rw [List.pairwise_append] at h
  obtain ⟨_, hb, hab⟩ := h
  rw [List.pairwise_cons] at hb
  constructor
  · intro e he heq
    have := hab e he (k, v) (by simp)
    rw [heq] at this
    simp [keyLt_irrefl] at this
  · intro e he heq
    have := hb.1 e he
    rw [heq] at this
    simp [keyLt_irrefl] at this

end StdMap

namespace StdMap

variable {V : Type}

theorem find_of_mem_sorted {m : StdMap V} (hs : Sorted m) {k : String} {v : V}
    (h : (k, v) ∈ m) : m.find k = some v := by
  obtain ⟨a, b, rfl⟩ := List.append_of_mem h
  exact find_append_cons_self a b k v hs.keys_ne.1

theorem ne_of_find_none {m : StdMap V} {k : String} (h : m.find k = none) :
    ∀ e ∈ m, e.1 ≠ k := by
  induction m with
  | nil => simp
  | cons e rest ih =>
    obtain ⟨k', v'⟩ := e
    simp only [find] at h
    by_cases hk : k' = k
    · simp [hk] at h
    · simp only [hk, if_false] at h
      intro e he
      rcases List.mem_cons.1 he with rfl | he
      · exact hk
      · exact ih h e he

end StdMap

/-! ## The key order is a strict total order; `std::map` operations keep it -/

theorem char_eq_of_toNat {a b : Char} (h : a.toNat = b.toNat) : a = b := by
  have := congrArg Char.ofNat h
  simpa using this

theorem ltChars_trans : ∀ (a b c : List Char), ltChars a b = true → ltChars b c = true →
    ltChars a c = true
  | [], [], _, h, _ => by simp [ltChars] at h
  | [], _ :: _, [], _, h => by simp [ltChars] at h
  | [], _ :: _, _ :: _, _, _ => by simp [ltChars]
  | _ :: _, [], _, h, _ => by simp [ltChars] at h
  | _ :: _, _ :: _, [], _, h => by simp [ltChars] at h
  | x :: xs, y :: ys, z :: zs, h1, h2 => by
    simp only [ltChars] at h1 h2 ⊢
    by_cases hxy : x.toNat < y.toNat
    · by_cases hyz : y.toNat < z.toNat
      · have : x.toNat < z.toNat := by omega
        simp [this]
      · by_cases hyz2 : y.toNat = z.toNat
        · have : x.toNat < z.toNat := by omega
          simp [this]
        · simp [hyz, hyz2] at h2
    · by_cases hxy2 : x.toNat = y.toNat
      · rw [if_neg hxy, if_pos hxy2] at h1
        by_cases hyz : y.toNat < z.toNat
        · have : x.toNat < z.toNat := by omega
          simp [this]
        · by_cases hyz2 : y.toNat = z.toNat
          · rw [if_neg hyz, if_pos hyz2] at h2
            have h3 : ¬ x.toNat < z.toNat := by omega
            have h4 : x.toNat = z.toNat := by omega
            rw [if_neg h3, if_pos h4]
            exact ltChars_trans xs ys zs h1 h2
          · simp [hyz, hyz2] at h2
      · simp [hxy, hxy2] at h1

theorem ltChars_total : ∀ (a b : List Char), a ≠ b → ltChars a b = true ∨ ltChars b a = true
  | [], [], h => absurd rfl h
  | [], _ :: _, _ => by simp [ltChars]
  | _ :: _, [], _ => by simp [ltChars]
  | x :: xs, y :: ys, h => by
    simp only [ltChars]
    by_cases hxy : x.toNat < y.toNat
    · simp [hxy]
    · by_cases hyx : y.toNat < x.toNat
      · simp [hyx]
      · have heq : x.toNat = y.toNat := by omega
        have hc : x = y := char_eq_of_toNat heq
        subst hc
        have hne : xs ≠ ys := fun he => h (by rw [he])
        simpa using ltChars_total xs ys hne

theorem keyLt_trans {a b c : String} (h1 : keyLt a b = true) (h2 : keyLt b c = true) :
    keyLt a c = true := ltChars_trans a.data b.data c.data h1 h2

theorem keyLt_total {a b : String} (h : a ≠ b) : keyLt a b = true ∨ keyLt b a = true :=
  ltChars_total a.data b.data (fun hd => h (String.ext hd))

namespace StdMap

variable {V : Type}

theorem sorted_iff_keys (m : StdMap V) :
    Sorted m ↔ (m.map Prod.fst).Pairwise (fun a b => keyLt a b = true) := by
  simp [Sorted, List.pairwise_map]

theorem Sorted.of_keys_sublist {m1 m2 : StdMap V} (hs : Sorted m2)
    (h : (m1.map Prod.fst).Sublist (m2.map Prod.fst)) : Sorted m1 :=
  (sorted_iff_keys m1).2 (((sorted_iff_keys m2).1 hs).sublist h)

theorem mem_insertNew (m : StdMap V) (k : String) (v : V) (e : String × V) :
    e ∈ m.insertNew k v ↔ e = (k, v) ∨ e ∈ m := by
  induction m with
  | nil => simp [insertNew]
  | cons e2 rest ih =>
    obtain ⟨k', v'⟩ := e2
    simp only [insertNew]
    split
    · simp
    · simp only [List.mem_cons, ih]
      tauto

theorem insertNew_sorted (m : StdMap V) (k : String) (v : V) (hs : Sorted m)
    (hf : m.find k = none) : Sorted (m.insertNew k v) := by
  induction m with
  | nil => simp [insertNew, Sorted]
  | cons e rest ih =>
    obtain ⟨k', v'⟩ := e
    have hk : k' ≠ k := ne_of_find_none hf (k', v') (by simp)
    have hf2 : find rest k = none := by
      simp only [find, hk, if_false] at hf
      exact hf
    unfold Sorted at hs ih ⊢
    rw [List.pairwise_cons] at hs
    simp only [insertNew]
    by_cases hlt : keyLt k k' = true
    · rw [if_pos hlt, List.pairwise_cons, List.pairwise_cons]
      refine ⟨?_, hs⟩
      intro e he
      rcases List.mem_cons.1 he with rfl | he
      · exact hlt
      · exact keyLt_trans hlt (hs.1 e he)
    · rw [if_neg hlt, List.pairwise_cons]
      refine ⟨?_, ih hs.2 hf2⟩
      intro e he
      rcases (mem_insertNew rest k v e).1 he with rfl | he
      · rcases keyLt_total hk with h | h
        · exact h
        · exact absurd h hlt
      · exact hs.1 e he

theorem keys_assign (m : StdMap V) (k : String) (v : V) :
    (m.assign k v).map Prod.fst = m.map Prod.fst := by
  induction m with
  | nil => rfl
  | cons e rest ih =>
    obtain ⟨k', v'⟩ := e
    simp only [assign]
    split
    · rfl
    · simp [ih]

theorem mem_assign (m : StdMap V) (k : String) (v : V) (e : String × V)
    (h : e ∈ m.assign k v) : e ∈ m ∨ e.2 = v := by
  induction m with
  | nil => simp [assign] at h
  | cons e2 rest ih =>
    obtain ⟨k', v'⟩ := e2
    simp only [assign] at h
    split at h
    · rcases List.mem_cons.1 h with rfl | h
      · exact Or.inr rfl
      · exact Or.inl (by simp [h])
    · rcases List.mem_cons.1 h with rfl | h
      · exact Or.inl (by simp)
      · rcases ih h with h2 | h2
        · exact Or.inl (by simp [h2])
        · exact Or.inr h2

theorem find_some_split (m : StdMap V) (k : String) (v : V) (h : m.find k = some v) :
    ∃ a b, m = a ++ (k, v) :: b ∧ ∀ e ∈ a, e.1 ≠ k := by
  induction m with
  | nil => simp [find] at h
  | cons e rest ih =>
    obtain ⟨k', v'⟩ := e
    simp only [find] at h
    by_cases hk : k' = k
    · simp only [hk, if_true, Option.some.injEq] at h
      subst hk h
      exact ⟨[], rest, rfl, by simp⟩
    · simp only [hk, if_false] at h
      obtain ⟨a, b, hab, ha⟩ := ih h
      refine ⟨(k', v') :: a, b, by simp [hab], ?_⟩
      intro e he
      rcases List.mem_cons.1 he with rfl | he
      · exact hk
      · exact ha e he

theorem insertNew_split (m : StdMap V) (k : String) (v : V) (h : m.find k = none) :
    ∃ a b, m = a ++ b ∧ m.insertNew k v = a ++ (k, v) :: b ∧ ∀ e ∈ a, e.1 ≠ k := by
  induction m with
  | nil => exact ⟨[], [], rfl, rfl, by simp⟩
  | cons e rest ih =>
    obtain ⟨k', v'⟩ := e
    have hk : k' ≠ k := ne_of_find_none h (k', v') (by simp)
    have hf2 : find rest k = none := by
      simp only [find, hk, if_false] at h
      exact h
    simp only [insertNew]
    by_cases hlt : keyLt k k' = true
    · exact ⟨[], (k', v') :: rest, rfl, by simp [hlt], by simp⟩
    · obtain ⟨a, b, hab, hins, ha⟩ := ih hf2
      refine ⟨(k', v') :: a, b, by simp [hab], by simp [hlt, hins], ?_⟩
      intro e he
      rcases List.mem_cons.1 he with rfl | he
      · exact hk
      · exact ha e he

theorem assign_append_cons (a b : StdMap V) (k : String) (v v2 : V)
    (ha : ∀ e ∈ a, e.1 ≠ k) : assign (a ++ (k, v) :: b) k v2 = a ++ (k, v2) :: b := by
  induction a with
  | nil => simp [assign]
  | cons e rest ih =>
    obtain ⟨k', v'⟩ := e
    have hk : k' ≠ k := ha (k', v') (by simp)
    simp only [List.cons_append, assign, hk, if_false]
    exact congrArg _ (ih (fun e he => ha e (by simp [he])))

end StdMap

section RegistryFacts

variable {F : Type}

theorem setVar_same (heap : Nat → Var F) (p : Nat) (v : Var F) : setVar heap p v p = v := by
  simp [setVar]

theorem setVar_other (heap : Nat → Var F) (p q : Nat) (v : Var F) (h : q ≠ p) :
    setVar heap p v q = heap q := by
  simp [setVar, h]

theorem entries_append (a b : StdMap (StdMap Nat)) :
    entries (a ++ b) = entries a ++ entries b := by
  induction a with
  | nil => rfl
  | cons g rest ih =>
    obtain ⟨k, grp⟩ := g
    simp [entries, ih]

theorem registered_append (a b : StdMap (StdMap Nat)) :
    registered (a ++ b) = registered a ++ registered b := by
  simp [registered, entries_append]

theorem registered_cons (g : String) (grp : StdMap Nat) (rest : StdMap (StdMap Nat)) :
    registered ((g, grp) :: rest) = grp.map Prod.snd ++ registered rest := by
  simp [registered, entries, Function.comp]

theorem eraseTarget_none (heap : Nat → Var F) (t : Nat) (grp : StdMap Nat)
    (h : ∀ e ∈ grp, (heap e.2).getTarget ≠ t) : eraseTarget heap t grp = none := by
  induction grp with
  | nil => rfl
  | cons e rest ih =>
    obtain ⟨n, p⟩ := e
    have hp : (heap p).getTarget ≠ t := h (n, p) (by simp)
    simp only [eraseTarget, hp, if_false]
    rw [ih (fun e he => h e (by simp [he]))]
    rfl

theorem eraseTarget_some (heap : Nat → Var F) (t : Nat) (grp : StdMap Nat)
    (h : ∃ e ∈ grp, (heap e.2).getTarget = t) :
    ∃ gseen n p gtodo, grp = gseen ++ (n, p) :: gtodo ∧ (heap p).getTarget = t ∧
      (∀ e ∈ gseen, (heap e.2).getTarget ≠ t) ∧
      eraseTarget heap t grp = some (gseen ++ gtodo) := by
  induction grp with
  | nil => simp at h
  | cons e rest ih =>
    obtain ⟨n, p⟩ := e
    by_cases hp : (heap p).getTarget = t
    · exact ⟨[], n, p, rest, rfl, hp, by simp, by simp [eraseTarget, hp]⟩
    · have hrest : ∃ e ∈ rest, (heap e.2).getTarget = t := by
        obtain ⟨e, he, het⟩ := h
        rcases List.mem_cons.1 he with rfl | he
        · exact absurd het hp
        · exact ⟨e, he, het⟩
      obtain ⟨gseen, n2, p2, gtodo, hgrp, hp2, hseen, her⟩ := ih hrest
      refine ⟨(n, p) :: gseen, n2, p2, gtodo, by simp [hgrp], hp2, ?_, ?_⟩
      · intro e he
        rcases List.mem_cons.1 he with rfl | he
        · exact hp
        · exact hseen e he
      · simp [eraseTarget, hp, her]

theorem removeLoop_spec (heap : Nat → Var F) (t : Nat) (seen todo : StdMap (StdMap Nat))
    (hex : ∃ q ∈ registered todo, (heap q).getTarget = t) :
    ∃ s2 g gseen n p gtodo t2,
      todo = s2 ++ (g, gseen ++ (n, p) :: gtodo) :: t2 ∧ (heap p).getTarget = t ∧
      (∀ q ∈ registered s2, (heap q).getTarget ≠ t) ∧
      (∀ e ∈ gseen, (heap e.2).getTarget ≠ t) ∧
      removeLoop heap t seen todo =
        some (if (gseen ++ gtodo).isEmpty
          then StdMap.erase ((seen ++ s2) ++ (g, gseen ++ gtodo) :: t2) g
          else (seen ++ s2) ++ (g, gseen ++ gtodo) :: t2) := by
  induction todo generalizing seen with
  | nil => simp [registered, entries] at hex
  | cons e rest ih =>
    obtain ⟨g, grp⟩ := e
    by_cases hin : ∃ e ∈ grp, (heap e.2).getTarget = t
    · obtain ⟨gseen, n, p, gtodo, hgrp, hp, hseen, her⟩ := eraseTarget_some heap t grp hin
      refine ⟨[], g, gseen, n, p, gtodo, rest, by simp [hgrp], hp, by simp [registered, entries],
        hseen, ?_⟩
      simp only [removeLoop, her, List.append_nil]
      split <;> rfl
    · have hnone : eraseTarget heap t grp = none :=
        eraseTarget_none heap t grp (fun e he het => hin ⟨e, he, het⟩)
      have hrest : ∃ q ∈ registered rest, (heap q).getTarget = t := by
        obtain ⟨q, hq, hqt⟩ := hex
        rw [registered_cons, List.mem_append] at hq
        rcases hq with hq | hq
        · obtain ⟨e, he, rfl⟩ := List.mem_map.1 hq
          exact absurd ⟨e, he, hqt⟩ hin
        · exact ⟨q, hq, hqt⟩
      obtain ⟨s2, g2, gseen, n, p, gtodo, t2, htodo, hp, hs2, hseen, hloop⟩ :=
        ih (seen ++ [(g, grp)]) hrest
      refine ⟨(g, grp) :: s2, g2, gseen, n, p, gtodo, t2, by simp [htodo], hp, ?_, hseen, ?_⟩
      · intro q hq
        rw [registered_cons, List.mem_append] at hq
        rcases hq with hq | hq
        · obtain ⟨e, he, rfl⟩ := List.mem_map.1 hq
          exact fun het => hin ⟨e, he, het⟩
        · exact hs2 q hq
      · simp only [removeLoop, hnone, hloop]
        simp

theorem removeLoop_none (heap : Nat → Var F) (t : Nat) (seen todo : StdMap (StdMap Nat))
    (h : ∀ q ∈ registered todo, (heap q).getTarget ≠ t) :
    removeLoop heap t seen todo = none := by
  induction todo generalizing seen with
  | nil => rfl
  | cons e rest ih =>
    obtain ⟨g, grp⟩ := e
    have hgrp : eraseTarget heap t grp = none :=
      eraseTarget_none heap t grp (fun e he =>
        h e.2 (by rw [registered_cons]; exact List.mem_append_left _ (List.mem_map.2 ⟨e, he, rfl⟩)))
    simp only [removeLoop, hgrp]
    exact ih _ (fun q hq => h q (by rw [registered_cons]; exact List.mem_append_right _ hq))

theorem removeTarget_split (w : World F) (addr : Nat) (hs : StdMap.Sorted w.bag.mItems)
    (hex : ∃ q ∈ registered w.bag.mItems, (w.heap q).getTarget = addr) :
    ∃ seen g gseen n p gtodo todo,
      w.bag.mItems = seen ++ (g, gseen ++ (n, p) :: gtodo) :: todo ∧
      (w.heap p).getTarget = addr ∧
      (∀ q ∈ registered seen, (w.heap q).getTarget ≠ addr) ∧
      (∀ e ∈ gseen, (w.heap e.2).getTarget ≠ addr) ∧
      JsonBag.removeTarget w (some addr) =
        { w with bag := { w.bag with
            mItems := seen ++ (if gseen ++ gtodo = [] then [] else [(g, gseen ++ gtodo)]) ++
              todo } } := by
  obtain ⟨seen, g, gseen, n, p, gtodo, todo, hitems, hp, hseen, hgs, hloop⟩ :=
    removeLoop_spec w.heap addr [] w.bag.mItems hex
  simp only [List.nil_append] at hloop
  have hsorted : StdMap.Sorted (seen ++ (g, gseen ++ (n, p) :: gtodo) :: todo) := hitems ▸ hs
  obtain ⟨hga, _⟩ := hsorted.keys_ne
  refine ⟨seen, g, gseen, n, p, gtodo, todo, hitems, hp, hseen, hgs, ?_⟩
  simp only [JsonBag.removeTarget, hloop]
  by_cases hempty : gseen ++ gtodo = []
  · simp only [hempty, List.isEmpty_nil, if_true, List.append_nil]
    rw [StdMap.erase_append_cons seen todo g [] hga]
  · have : (gseen ++ gtodo).isEmpty = false := by
      cases hl : gseen ++ gtodo with
      | nil => exact absurd hl hempty
      | cons _ _ => rfl
    simp [this, hempty]

theorem emplace_fresh_split (w : World F) (var : Nat) (name g : String)
    (h : lookup w.bag.mItems g name = none) :
    ∃ (a b : StdMap (StdMap Nat)) (grp : StdMap Nat),
      (∀ e ∈ a, e.1 ≠ g) ∧ grp.find name = none ∧
      ((w.bag.mItems.find g = none ∧ w.bag.mItems = a ++ b ∧ grp = [] ∧
          w.bag.mItems.insertNew g [] = a ++ (g, []) :: b) ∨
        w.bag.mItems = a ++ (g, grp) :: b) ∧
      JsonBag.emplace w var name g =
        { w with
          bag := { w.bag with mItems := a ++ (g, grp.insertNew name var) :: b }
          heap := setVar w.heap var (w.heap var).setOwner } := by
  cases hg : w.bag.mItems.find g with
  | none =>
    obtain ⟨a, b, hab, hins, ha⟩ := StdMap.insertNew_split w.bag.mItems g ([] : StdMap Nat) hg
    refine ⟨a, b, [], ha, rfl, Or.inl ⟨rfl, hab, rfl, hins⟩, ?_⟩
    have hidx : w.bag.mItems.index g [] = a ++ (g, []) :: b := by
      simp [StdMap.index, StdMap.count, hg, hins]
    simp only [JsonBag.emplace, hidx, StdMap.find_append_cons_self a b g [] ha,
      Option.getD_some]
    simp [StdMap.count, StdMap.find, StdMap.emplace, StdMap.assign_append_cons a b g _ _ ha]
  | some grp =>
    obtain ⟨a, b, hab, ha⟩ := StdMap.find_some_split w.bag.mItems g grp hg
    have hn : grp.find name = none := by simpa [lookup, hg] using h
    refine ⟨a, b, grp, ha, hn, Or.inr hab, ?_⟩
    have hidx : w.bag.mItems.index g [] = w.bag.mItems := StdMap.index_of_find _ _ _ _ hg
    simp only [JsonBag.emplace, hidx, hg, Option.getD_some]
    simp only [StdMap.count, hn, ne_eq, not_true_eq_false, if_false, StdMap.emplace, if_true]
    rw [hab, StdMap.assign_append_cons a b g _ _ ha]

theorem emplace_dup_items (w : World F) (var v1 : Nat) (name g : String)
    (h : lookup w.bag.mItems g name = some v1) :
    (JsonBag.emplace w var name g).bag.mItems = w.bag.mItems := by
  obtain ⟨grp, hg, hn⟩ : ∃ grp, w.bag.mItems.find g = some grp ∧ grp.find name = some v1 := by
    unfold lookup at h
    cases hg : w.bag.mItems.find g with
    | none => simp [hg] at h
    | some grp => exact ⟨grp, rfl, by simpa [hg] using h⟩
  have hidx : w.bag.mItems.index g [] = w.bag.mItems := StdMap.index_of_find _ _ _ _ hg
  have hcount : grp.count name ≠ 0 := by simp [StdMap.count, hn]
  simp only [JsonBag.emplace, hidx, hg, Option.getD_some, hcount, ne_eq, not_false_eq_true,
    if_true, World.logE]

theorem emplace_inv (w : World F) (var : Nat) (name g : String)
    (hinv : RegInv w.bag.mItems) : RegInv (JsonBag.emplace w var name g).bag.mItems := by
  cases hl : lookup w.bag.mItems g name with
  | some v1 => rw [emplace_dup_items w var v1 name g hl]; exact hinv
  | none =>
    obtain ⟨a, b, grp, ha, hn, hcase, hw⟩ := emplace_fresh_split w var name g hl
    rw [hw]
    obtain ⟨⟨hso, hsi⟩, hne⟩ := hinv
    have hgrp : StdMap.Sorted grp := by
      rcases hcase with ⟨_, _, hge, _⟩ | hab
      · rw [hge]; simp [StdMap.Sorted]
      · exact hsi (g, grp) (by rw [hab]; simp)
    have hmem : ∀ e ∈ a ++ (g, grp.insertNew name var) :: b,
        e = (g, grp.insertNew name var) ∨ e ∈ w.bag.mItems := by
      intro e he
      rcases List.mem_append.1 he with he | he
      · right
        rcases hcase with ⟨_, hab, _, _⟩ | hab <;> rw [hab] <;> simp [he]
      · rcases List.mem_cons.1 he with rfl | he
        · exact Or.inl rfl
        · right
          rcases hcase with ⟨_, hab, _, _⟩ | hab <;> rw [hab] <;> simp [he]
    refine ⟨⟨?_, ?_⟩, ?_⟩
    · rcases hcase with ⟨hf, _, _, hins⟩ | hab
      · have h1 : StdMap.Sorted (w.bag.mItems.insertNew g ([] : StdMap Nat)) :=
          StdMap.insertNew_sorted _ _ _ hso hf
        exact h1.of_keys_sublist (by rw [hins]; simp)
      · exact hso.of_keys_sublist (by rw [hab]; simp)
    · intro e he
      rcases hmem e he with rfl | he
      · exact StdMap.insertNew_sorted _ _ _ hgrp hn
      · exact hsi e he
    · intro e he
      rcases hmem e he with rfl | he
      · intro hnil
        have : (name, var) ∈ grp.insertNew name var :=
          (StdMap.mem_insertNew grp name var _).2 (Or.inl rfl)
        simp only at hnil
        rw [hnil] at this
        simp at this
      · exact hne e he

theorem removeTarget_inv (w : World F) (target : Option Nat)
    (hinv : RegInv w.bag.mItems) : RegInv (JsonBag.removeTarget w target).bag.mItems := by
  cases target with
  | none => exact hinv
  | some addr =>
    by_cases hex : ∃ q ∈ registered w.bag.mItems, (w.heap q).getTarget = addr
    · obtain ⟨seen, g, gseen, n, p, gtodo, todo, hitems, _, _, _, hw⟩ :=
        removeTarget_split w addr hinv.1.1 hex
      rw [hw]
      obtain ⟨⟨hso, hsi⟩, hne⟩ := hinv
      have hmem : ∀ e ∈ seen ++ (if gseen ++ gtodo = [] then []
          else [(g, gseen ++ gtodo)]) ++ todo,
          (e = (g, gseen ++ gtodo) ∧ gseen ++ gtodo ≠ []) ∨ e ∈ w.bag.mItems := by
        intro e he
        rw [hitems]
        simp only [List.mem_append] at he
        rcases he with (he | he) | he
        · right; simp [he]
        · by_cases hempty : gseen ++ gtodo = []
          · simp [hempty] at he
          · simp only [hempty, if_false, List.mem_singleton] at he
            exact Or.inl ⟨he, hempty⟩
        · right; simp [he]
      have hgs : StdMap.Sorted (gseen ++ (n, p) :: gtodo) :=
        hsi (g, gseen ++ (n, p) :: gtodo) (by rw [hitems]; simp)
      refine ⟨⟨?_, ?_⟩, ?_⟩
      · refine hso.of_keys_sublist ?_
        rw [hitems]
        by_cases hempty : gseen ++ gtodo = []
        · simp only [hempty, if_true, List.append_nil, List.map_append, List.map_cons]
          exact List.Sublist.append_left (List.sublist_cons_self _ _) _
        · simp [hempty]
      · intro e he
        rcases hmem e he with ⟨rfl, _⟩ | he
        · exact hgs.of_keys_sublist (by simp)
        · exact hsi e he
      · intro e he
        rcases hmem e he with ⟨rfl, h2⟩ | he
        · exact h2
        · exact hne e he
    · have hnone : removeLoop w.heap addr [] w.bag.mItems = none :=
        removeLoop_none w.heap addr [] w.bag.mItems
          (fun q hq hqt => hex ⟨q, hq, hqt⟩)
      simp only [JsonBag.removeTarget, hnone, World.logE]
      exact hinv

theorem runOps_inv (ops : List (RegOp F)) (w : World F) (hinv : RegInv w.bag.mItems) :
    RegInv (runOps w ops).bag.mItems := by
  induction ops generalizing w with
  | nil => exact hinv
  | cons op rest ih =>
    refine ih (RegOp.apply w op) ?_
    cases op with
    | emplace var name g => exact emplace_inv w var name g hinv
    | removeTarget target => exact removeTarget_inv w target hinv
    | poke p v => exact hinv

theorem eraseTarget_insertNew (heap : Nat → Var F) (t : Nat) (grp : StdMap Nat)
    (name : String) (p : Nat) (hp : (heap p).getTarget = t)
    (hgrp : ∀ e ∈ grp, (heap e.2).getTarget ≠ t) :
    eraseTarget heap t (grp.insertNew name p) = some grp := by
  induction grp with
  | nil => simp [StdMap.insertNew, eraseTarget, hp]
  | cons e rest ih =>
    obtain ⟨n, q⟩ := e
    have hq : (heap q).getTarget ≠ t := hgrp (n, q) (by simp)
    simp only [StdMap.insertNew]
    split
    · simp [eraseTarget, hp]
    · simp [eraseTarget, hq, ih (fun e he => hgrp e (by simp [he]))]

theorem removeLoop_at (heap : Nat → Var F) (t : Nat) (seen a b : StdMap (StdMap Nat))
    (g : String) (grp1 grp2 : StdMap Nat)
    (ha : ∀ q ∈ registered a, (heap q).getTarget ≠ t)
    (hg : eraseTarget heap t grp1 = some grp2) :
    removeLoop heap t seen (a ++ (g, grp1) :: b) =
      some (if grp2.isEmpty then StdMap.erase ((seen ++ a) ++ (g, grp2) :: b) g
        else (seen ++ a) ++ (g, grp2) :: b) := by
  induction a generalizing seen with
  | nil =>
    simp only [List.nil_append, removeLoop, hg, List.append_nil]
    split <;> rfl
  | cons e rest ih =>
    obtain ⟨k, grp⟩ := e
    have hgrp : eraseTarget heap t grp = none :=
      eraseTarget_none heap t grp (fun e he =>
        ha e.2 (by rw [registered_cons]; exact List.mem_append_left _ (List.mem_map.2 ⟨e, he, rfl⟩)))
    have hstep : removeLoop heap t seen ((k, grp) :: rest ++ (g, grp1) :: b) =
        removeLoop heap t (seen ++ [(k, grp)]) (rest ++ (g, grp1) :: b) := by
      simp only [List.cons_append, removeLoop, hgrp]
      rfl
    rw [hstep, ih (seen ++ [(k, grp)])
      (fun q hq => ha q (by rw [registered_cons]; exact List.mem_append_right _ hq))]
    simp

end RegistryFacts

section DocumentFacts

variable {F : Type}

theorem pushBack_node (k v : String) (cs : List JsonTree) (c : JsonTree) :
    (JsonTree.node k v cs).pushBack c = JsonTree.node k v (cs ++ [c]) := rfl

theorem Var.save_eq (lib : Lib F) (v : Var F) (name : String) (tree : JsonTree) :
    v.save lib name tree = tree.addChild (encode lib v name) := by
  cases tree with
  | node k t cs =>
    unfold Var.save encode
    cases v.mValue <;>
      simp [JsonTree.addChild, JsonTree.pushBack, JsonTree.leaf, JsonTree.makeArray]

theorem saveGroup_foldl (lib : Lib F) (heap : Nat → Var F) (g : String) (group : StdMap Nat)
    (cs : List JsonTree) :
    group.foldl (fun jsonGroup item => (heap item.2).save lib item.1 jsonGroup)
        (JsonTree.node g "" cs) =
      JsonTree.node g "" (cs ++ group.map (fun e => encode lib (heap e.2) e.1)) := by
  induction group generalizing cs with
  | nil => simp
  | cons e rest ih =>
    rw [List.foldl_cons, Var.save_eq, JsonTree.addChild, pushBack_node, ih]
    simp

theorem saveGroup_eq (lib : Lib F) (heap : Nat → Var F) (g : String) (group : StdMap Nat) :
    saveGroup lib heap g group = groupNode lib heap (g, group) := by
  simp [saveGroup, groupNode, JsonTree.makeArray, saveGroup_foldl]

theorem buildDoc_foldl (lib : Lib F) (heap : Nat → Var F) (items : StdMap (StdMap Nat))
    (cs : List JsonTree) :
    items.foldl (fun doc group => doc.pushBack (saveGroup lib heap group.1 group.2))
        (JsonTree.node "" "" cs) =
      JsonTree.node "" "" (cs ++ items.map (groupNode lib heap)) := by
  induction items generalizing cs with
  | nil => simp
  | cons e rest ih =>
    rw [List.foldl_cons, pushBack_node, ih, saveGroup_eq]
    simp

theorem buildDoc_eq (lib : Lib F) (w : World F) :
    JsonBag.buildDoc lib w =
      JsonTree.node "" "" (w.bag.mItems.map (groupNode lib w.heap) ++
        [versionLeaf lib w.bag.mVersion]) := by
  unfold JsonBag.buildDoc JsonTree.empty
  rw [buildDoc_foldl, JsonTree.addChild, pushBack_node]
  simp [JsonTree.leaf, versionLeaf]

theorem mem_registered {items : StdMap (StdMap Nat)} {p : Nat} :
    p ∈ registered items ↔ ∃ g ∈ items, ∃ e ∈ g.2, e.2 = p := by
  induction items with
  | nil => simp [registered, entries]
  | cons g rest ih =>
    obtain ⟨k, grp⟩ := g
    simp only [registered, entries, List.map_append, List.mem_append, List.map_map,
      List.mem_cons, exists_eq_or_imp] at ih ⊢
    rw [ih]
    simp [Function.comp]

theorem groupNode_congr (lib : Lib F) (h1 h2 : Nat → Var F) (items : StdMap (StdMap Nat))
    (h : ∀ p ∈ registered items, (h1 p).mValue = (h2 p).mValue) :
    items.map (groupNode lib h1) = items.map (groupNode lib h2) := by
  apply List.map_congr_left
  intro g hg
  simp only [groupNode]
  congr 1
  apply List.map_congr_left
  intro e he
  have := h e.2 (mem_registered.2 ⟨g, hg, e, he, rfl⟩)
  simp [encode, this]

theorem encode_key (lib : Lib F) (v : Var F) (name : String) :
    (encode lib v name).key = name := by
  unfold encode
  cases v.mValue <;> rfl

end DocumentFacts

section LoadFacts

variable {F : Type}

theorem Var.decode_congr (lib : Lib F) (v1 v2 : Var F) (item : JsonTree)
    (h : v1.mValue.kind = v2.mValue.kind) : v1.decode lib item = v2.decode lib item := by
  unfold Var.decode
  cases h1 : v1.mValue <;> cases h2 : v2.mValue <;> simp_all [Value.kind]

theorem Var.decode_kind (lib : Lib F) (v : Var F) (item : JsonTree) (x : Value F)
    (h : v.decode lib item = .ok x) : x.kind = v.mValue.kind := by
  unfold Var.decode at h
  cases hv : v.mValue <;> simp only [hv] at h <;>
    (repeat' split at h) <;> simp_all [Value.kind] <;> (subst h; rfl)

theorem update_kind (lib : Lib F) (heap : Nat → Var F) (p : Nat) (item : JsonTree)
    (x : Value F) (h : (heap p).decode lib item = .ok x) (q : Nat) :
    (setVar heap p ((heap p).update x) q).mValue.kind = (heap q).mValue.kind := by
  by_cases hq : q = p
  · subst hq
    simp only [setVar, if_true, Var.update, Var.callUpdateFn]
    split <;> exact Var.decode_kind lib _ item x h
  · simp [setVar, hq]

theorem applyItems_kind (lib : Lib F) (ts : List (Nat × JsonTree)) (heap : Nat → Var F)
    (q : Nat) : (applyItems lib ts heap q).mValue.kind = (heap q).mValue.kind := by
  induction ts generalizing heap with
  | nil => rfl
  | cons t rest ih =>
    obtain ⟨p, item⟩ := t
    simp only [applyItems]
    cases hd : (heap p).decode lib item with
    | error e => exact ih heap
    | ok x => exact (ih _).trans (update_kind lib heap p item x hd q)

theorem applyItems_append (lib : Lib F) (a b : List (Nat × JsonTree)) (heap : Nat → Var F) :
    applyItems lib (a ++ b) heap = applyItems lib b (applyItems lib a heap) := by
  induction a generalizing heap with
  | nil => rfl
  | cons t rest ih =>
    obtain ⟨p, item⟩ := t
    simp only [List.cons_append, applyItems]
    cases hd : (heap p).decode lib item with
    | error e => exact ih heap
    | ok x => exact ih _

theorem decodes_of_kind (lib : Lib F) (h1 h2 : Nat → Var F) (ts : List (Nat × JsonTree))
    (hk : ∀ q, (h2 q).mValue.kind = (h1 q).mValue.kind)
    (hd : ∀ t ∈ ts, ∃ x, (h1 t.1).decode lib t.2 = .ok x) :
    ∀ t ∈ ts, ∃ x, (h2 t.1).decode lib t.2 = .ok x := by
  intro t ht
  obtain ⟨x, hx⟩ := hd t ht
  exact ⟨x, (Var.decode_congr lib _ _ t.2 (hk t.1)).trans hx⟩

theorem loadItems_ok (lib : Lib F) (groupItems : StdMap Nat) (children : List JsonTree)
    (w : World F)
    (hd : ∀ t ∈ itemTargets groupItems children, ∃ x, (w.heap t.1).decode lib t.2 = .ok x) :
    loadItems lib groupItems children w =
      ⟨{ w with
          heap := applyItems lib (itemTargets groupItems children) w.heap
          log := w.log ++ itemErrors groupItems children }, none⟩ := by
  induction children generalizing w with
  | nil => simp [loadItems, itemTargets, itemErrors, applyItems]
  | cons item rest ih =>
    cases hf : groupItems.find item.key with
    | none =>
      have ht : itemTargets groupItems (item :: rest) = itemTargets groupItems rest := by
        simp [itemTargets, hf]
      have he : itemErrors groupItems (item :: rest) =
          ("No item named " ++ item.key) :: itemErrors groupItems rest := by
        simp [itemErrors, hf]
      rw [ht] at hd
      simp only [loadItems, hf]
      rw [ih (w.logE ("No item named " ++ item.key)) hd, ht, he]
      simp [World.logE]
    | some p =>
      have ht : itemTargets groupItems (item :: rest) =
          (p, item) :: itemTargets groupItems rest := by
        simp [itemTargets, hf]
      have he : itemErrors groupItems (item :: rest) = itemErrors groupItems rest := by
        simp [itemErrors, hf]
      rw [ht] at hd
      obtain ⟨x, hx⟩ := hd (p, item) (by simp)
      have hd2 : ∀ t ∈ itemTargets groupItems rest,
          ∃ y, (setVar w.heap p ((w.heap p).update x) t.1).decode lib t.2 = .ok y :=
        decodes_of_kind lib w.heap _ _ (update_kind lib w.heap p item x hx)
          (fun t ht => hd t (by simp [ht]))
      simp only [loadItems, hf, Var.load, hx]
      rw [ih { w with heap := setVar w.heap p ((w.heap p).update x) } hd2, ht, he]
      simp [applyItems, hx]

theorem loadGroups_ok (lib : Lib F) (nodes : List JsonTree) (w : World F)
    (hd : ∀ t ∈ loadTargets w.bag.mItems nodes, ∃ x, (w.heap t.1).decode lib t.2 = .ok x) :
    loadGroups lib nodes w =
      ⟨{ w with
          heap := applyItems lib (loadTargets w.bag.mItems nodes) w.heap
          log := w.log ++ loadErrors w.bag.mItems nodes }, none⟩ := by
  induction nodes generalizing w with
  | nil => simp [loadGroups, loadTargets, loadErrors, applyItems]
  | cons node rest ih =>
    cases hf : w.bag.mItems.find node.key with
    | none =>
      have ht : loadTargets w.bag.mItems (node :: rest) = loadTargets w.bag.mItems rest := by
        simp [loadTargets, hf]
      rw [ht] at hd
      by_cases hv : node.key = "version"
      · have he : loadErrors w.bag.mItems (node :: rest) = loadErrors w.bag.mItems rest := by
          simp only [loadErrors, hf]
          simp [hv]
        simp only [loadGroups, hf]
        rw [if_neg (by simp [hv]), ih w hd, ht, he]
      · have he : loadErrors w.bag.mItems (node :: rest) =
            ("No group named " ++ node.key) :: loadErrors w.bag.mItems rest := by
          simp only [loadErrors, hf]
          simp [hv]
        simp only [loadGroups, hf]
        rw [if_pos hv, ih (w.logE ("No group named " ++ node.key)) hd, ht, he]
        simp [World.logE]
    | some groupItems =>
      have ht : loadTargets w.bag.mItems (node :: rest) =
          itemTargets groupItems node.children ++ loadTargets w.bag.mItems rest := by
        simp [loadTargets, hf]
      have he : loadErrors w.bag.mItems (node :: rest) =
          itemErrors groupItems node.children ++ loadErrors w.bag.mItems rest := by
        simp [loadErrors, hf]
      rw [ht] at hd
      have hd1 : ∀ t ∈ itemTargets groupItems node.children,
          ∃ x, (w.heap t.1).decode lib t.2 = .ok x := fun t ht => hd t (by simp [ht])
      have hd2 : ∀ t ∈ loadTargets w.bag.mItems rest,
          ∃ y, (applyItems lib (itemTargets groupItems node.children) w.heap t.1).decode lib t.2
            = .ok y :=
        decodes_of_kind lib w.heap _ _ (applyItems_kind lib _ w.heap)
          (fun t ht => hd t (by simp [ht]))
      simp only [loadGroups, hf, loadItems_ok lib groupItems node.children w hd1]
      rw [ih _ hd2, ht, he]
      simp [applyItems_append]

theorem loadErrors_length (items : StdMap (StdMap Nat)) (nodes : List JsonTree) :
    (loadErrors items nodes).length =
      (unknownItems items nodes).length + (unknownGroups items nodes).length := by
  induction nodes with
  | nil => rfl
  | cons node rest ih =>
    have hg : unknownGroups items (node :: rest) =
        (if (items.find node.key).isNone && decide (node.key ≠ "version") then [node] else []) ++
          unknownGroups items rest := by
      simp only [unknownGroups, List.filter_cons]
      split <;> rfl
    simp only [loadErrors, unknownItems, hg, List.length_append, ih]
    cases hf : items.find node.key with
    | some groupItems =>
      simp [itemErrors]
      omega
    | none =>
      by_cases hv : node.key = "version"
      · simp [hv]
      · simp [hv]
        omega

theorem decodes_iff (lib : Lib F) (v : Var F) (item : JsonTree) :
    decodes lib v item = true ↔ ∃ x, v.decode lib item = .ok x := by
  unfold decodes
  cases v.decode lib item <;> simp

theorem load_of_decodes (lib : Lib F) (w : World F) (text : String) (doc : JsonTree)
    (hfile : w.files w.bag.mJsonFilePath = some text) (hparse : lib.parse text = some doc)
    (hver : versionReadable lib doc = true)
    (hdec : ∀ t ∈ loadTargets w.bag.mItems doc.children, decodes lib (w.heap t.1) t.2 = true) :
    JsonBag.load lib w =
      ⟨{ w with
          bag := { w.bag with
            mVersion := readVersion lib doc w.bag.mVersion, mIsLoaded := true }
          heap := applyItems lib (loadTargets w.bag.mItems doc.children) w.heap
          log := w.log ++ loadErrors w.bag.mItems doc.children }, none⟩ := by
  have hd : ∀ t ∈ loadTargets w.bag.mItems doc.children,
      ∃ x, (w.heap t.1).decode lib t.2 = .ok x :=
    fun t ht => (decodes_iff lib _ _).1 (hdec t ht)
  simp only [JsonBag.load, hfile, hparse, loadDoc]
  cases hc : JsonTree.findChild doc.children "version" with
  | none =>
    simp only [loadGroups_ok lib doc.children w hd]
    simp [World.markLoaded, readVersion, hc]
  | some c =>
    simp only [versionReadable, hc] at hver
    obtain ⟨i, hi⟩ := Option.isSome_iff_exists.1 hver
    simp only [JsonTree.getValueInt, hi]
    rw [loadGroups_ok lib doc.children { w with bag := { w.bag with mVersion := i } } hd]
    simp [World.markLoaded, readVersion, hc, hi]

theorem decode_encode (lib : Lib F) (v1 v2 : Var F) (name : String)
    (hk : v2.mValue.kind = v1.mValue.kind) (hl : Lossless lib v1.mValue) :
    v2.decode lib (encode lib v1 name) = .ok v1.mValue := by
  unfold Var.decode encode
  cases h1 : v1.mValue <;> cases h2 : v2.mValue <;>
    simp_all [Value.kind, Lossless, ReadsBack, JsonTree.getValueBool, JsonTree.getValueInt,
      JsonTree.getValueFloat, JsonTree.getValueString, JsonTree.value,
      JsonTree.getChildFloat, JsonTree.getChild, JsonTree.children, JsonTree.findChild,
      JsonTree.key]

theorem findChild_append_of_ne (a b : List JsonTree) (k : String)
    (h : ∀ c ∈ a, c.key ≠ k) : JsonTree.findChild (a ++ b) k = JsonTree.findChild b k := by
  induction a with
  | nil => rfl
  | cons c rest ih =>
    have hc : c.key ≠ k := h c (by simp)
    simp only [List.cons_append, JsonTree.findChild, hc, if_false]
    exact ih (fun c hc => h c (by simp [hc]))

theorem itemTargets_encoded (lib : Lib F) (heap : Nat → Var F) (groupItems sub : StdMap Nat)
    (h : ∀ e ∈ sub, groupItems.find e.1 = some e.2) :
    itemTargets groupItems (sub.map (fun e => encode lib (heap e.2) e.1)) =
      sub.map (fun e => (e.2, encode lib (heap e.2) e.1)) := by
  induction sub with
  | nil => rfl
  | cons e rest ih =>
    have he := h e (by simp)
    have ih2 := ih (fun e he => h e (by simp [he]))
    simp only [itemTargets] at ih2 ⊢
    simp only [List.map_cons, List.filterMap_cons, encode_key, he, Option.map_some',
      ih2]

theorem loadTargets_encoded (lib : Lib F) (heap : Nat → Var F)
    (items sub : StdMap (StdMap Nat)) (tail : List JsonTree)
    (h : ∀ g ∈ sub, items.find g.1 = some g.2 ∧ StdMap.Sorted g.2) :
    loadTargets items (sub.map (groupNode lib heap) ++ tail) =
      (entries sub).map (fun e => (e.2.2, encode lib (heap e.2.2) e.2.1)) ++
        loadTargets items tail := by
  induction sub with
  | nil => simp [entries]
  | cons g rest ih =>
    obtain ⟨k, grp⟩ := g
    obtain ⟨hf, hs⟩ := h (k, grp) (by simp)
    have ih2 := ih (fun g hg => h g (by simp [hg]))
    have hit := itemTargets_encoded lib heap grp grp
      (fun e he => StdMap.find_of_mem_sorted hs (by simpa using he))
    simp only [List.map_cons, List.cons_append, loadTargets, groupNode, JsonTree.key,
      JsonTree.children] at ih2 ⊢
    simp only [hf, hit, entries, List.map_append, List.map_map, List.append_assoc]
    congr 1

theorem applyItems_values (lib : Lib F) (h1 : Nat → Var F) (ts : List (Nat × JsonTree))
    (heap : Nat → Var F)
    (hgood : ∀ t ∈ ts, ∀ v : Var F, v.mValue.kind = (h1 t.1).mValue.kind →
      v.decode lib t.2 = .ok (h1 t.1).mValue)
    (hk : ∀ t ∈ ts, (heap t.1).mValue.kind = (h1 t.1).mValue.kind) :
    (∀ t ∈ ts, (applyItems lib ts heap t.1).mValue = (h1 t.1).mValue) ∧
      ∀ q, q ∉ ts.map Prod.fst → applyItems lib ts heap q = heap q := by
  induction ts generalizing heap with
  | nil => simp [applyItems]
  | cons t rest ih =>
    obtain ⟨p, item⟩ := t
    have hx : (heap p).decode lib item = .ok (h1 p).mValue :=
      hgood (p, item) (by simp) (heap p) (hk (p, item) (by simp))
    have hk2 : ∀ t ∈ rest,
        (setVar heap p ((heap p).update (h1 p).mValue) t.1).mValue.kind =
          (h1 t.1).mValue.kind := by
      intro t ht
      rw [update_kind lib heap p item _ hx]
      exact hk t (by simp [ht])
    obtain ⟨ihv, iho⟩ := ih _ (fun t ht => hgood t (by simp [ht])) hk2
    have hap : applyItems lib ((p, item) :: rest) heap =
        applyItems lib rest (setVar heap p ((heap p).update (h1 p).mValue)) := by
      simp [applyItems, hx]
    rw [hap]
    constructor
    · intro t ht
      rcases List.mem_cons.1 ht with rfl | ht
      · by_cases hp : p ∈ rest.map Prod.fst
        · obtain ⟨t2, ht2, hpe⟩ := List.mem_map.1 hp
          have := ihv t2 ht2
          rw [hpe] at this
          exact this
        · show (applyItems lib rest _ p).mValue = _
          rw [iho p hp]
          simp only [setVar, if_true, Var.update, Var.callUpdateFn]
          split <;> rfl
      · exact ihv t ht
    · intro q hq
      simp only [List.map_cons, List.mem_cons, not_or] at hq
      rw [iho q hq.2]
      simp [setVar, hq.1]

theorem loadItems_bag (lib : Lib F) (groupItems : StdMap Nat) (children : List JsonTree)
    (w : World F) : (loadItems lib groupItems children w).world.bag = w.bag := by
  induction children generalizing w with
  | nil => rfl
  | cons item rest ih =>
    simp only [loadItems]
    cases groupItems.find item.key with
    | none => exact ih _
    | some p =>
      simp only
      cases (w.heap p).load lib item with
      | error e => rfl
      | ok v => exact ih _

theorem loadGroups_bag (lib : Lib F) (nodes : List JsonTree) (w : World F) :
    (loadGroups lib nodes w).world.bag = w.bag := by
  induction nodes generalizing w with
  | nil => rfl
  | cons node rest ih =>
    simp only [loadGroups]
    cases hf : w.bag.mItems.find node.key with
    | none =>
      simp only
      split
      · exact ih _
      · exact ih _
    | some groupItems =>
      simp only
      have hb := loadItems_bag lib groupItems node.children w
      cases hl : loadItems lib groupItems node.children w with
      | mk w1 exc =>
        rw [hl] at hb
        cases exc with
        | none => exact (ih w1).trans hb
        | some e => exact hb

theorem loadDoc_items (lib : Lib F) (doc : JsonTree) (w : World F) :
    (loadDoc lib doc w).world.bag.mItems = w.bag.mItems := by
  unfold loadDoc
  cases JsonTree.findChild doc.children "version" with
  | none => simp only [loadGroups_bag]
  | some c =>
    simp only
    cases c.getValueInt lib with
    | error e => rfl
    | ok i => simp only [loadGroups_bag]

theorem load_items (lib : Lib F) (w : World F) :
    (JsonBag.load lib w).world.bag.mItems = w.bag.mItems := by
  unfold JsonBag.load
  cases w.files w.bag.mJsonFilePath with
  | none => rfl
  | some text =>
    simp only
    cases lib.parse text with
    | none => rfl
    | some doc =>
      simp only
      have hb := loadDoc_items lib doc w
      cases hl : loadDoc lib doc w with
      | mk w1 exc =>
        rw [hl] at hb
        cases exc with
        | none => exact hb
        | some e => exact hb

theorem getChildFloat_error (lib : Lib F) (item : JsonTree) (k : String)
    (h : componentOk lib item k = false) : ∃ e, item.getChildFloat lib k = .error e := by
  unfold componentOk at h
  unfold JsonTree.getChildFloat JsonTree.getChild
  cases hc : JsonTree.findChild item.children k with
  | none => exact ⟨_, rfl⟩
  | some c =>
    simp only [hc] at h
    cases hv : lib.floatFromString c.value with
    | some f => simp [hv] at h
    | none => exact ⟨.nonConvertible, by simp [JsonTree.getValueFloat, hv]⟩

theorem decode_error (lib : Lib F) (v : Var F) (item : JsonTree)
    (hbad : (∃ k ∈ componentNames v.mValue.kind, componentOk lib item k = false) ∨
      scalarOk lib v.mValue.kind item = false) :
    ∃ e, v.decode lib item = .error e := by
  have hc : ∀ k, componentOk lib item k = false →
      item.getChildFloat lib k = .error .childNotFound ∨
      item.getChildFloat lib k = .error .nonConvertible := by
    intro k hk
    obtain ⟨e, he⟩ := getChildFloat_error lib item k hk
    cases e
    · exact Or.inl he
    · exact Or.inr he
  unfold Var.decode
  cases hv : v.mValue <;>
    simp only [hv, Value.kind, componentNames, scalarOk, List.mem_cons, List.mem_singleton,
      List.not_mem_nil, exists_eq_or_imp, exists_eq_left, false_and, exists_false, false_or,
      or_false, Bool.true_eq_false, JsonTree.getValueBool, JsonTree.getValueInt,
      JsonTree.getValueFloat, JsonTree.getValueString] at hbad ⊢
  case bool =>
    cases hx : lib.boolFromString item.value with
    | some b => simp [hx] at hbad
    | none => exact ⟨_, rfl⟩
  case int =>
    cases hx : lib.intFromString item.value with
    | some b => simp [hx] at hbad
    | none => exact ⟨_, rfl⟩
  case float =>
    cases hx : lib.floatFromString item.value with
    | some b => simp [hx] at hbad
    | none => exact ⟨_, rfl⟩
  all_goals
    (repeat' split)
    all_goals first
      | exact ⟨_, rfl⟩
      | (exfalso
         rcases hbad with h | h | h | h <;> rcases hc _ h with h2 | h2 <;> simp_all)
      | (exfalso
         rcases hbad with h | h | h <;> rcases hc _ h with h2 | h2 <;> simp_all)
      | (exfalso
         rcases hbad with h | h <;> rcases hc _ h with h2 | h2 <;> simp_all)

end LoadFacts

/-- C9 — Notification firing: assigning `x` to a variable that has a change callback
stores `x` and invokes the callback exactly once, whatever the previous value was
(in particular when it already was `x`); nothing else of the variable changes. -/
theorem assign_fires_callback_once {F : Type} (v : Var F) (x : Value F)
    (h : v.hasUpdateFn = true) :
    (v.assign x).mValue = x ∧ (v.assign x).updateCalls = v.updateCalls + 1 ∧
      (v.assign x).mVoidPtr = v.mVoidPtr ∧ (v.assign x).mOwner = v.mOwner ∧
      (v.assign x).hasUpdateFn = true := by
  simp [Var.assign, Var.update, Var.callUpdateFn, h]

/-- Witness for C9: a float variable with a callback is assigned the value it already has. -/
theorem assign_fires_callback_once_witness :
    (Var.assign { mkVar (.float 7) 100 with hasUpdateFn := true } (.float 7)).mValue = .float 7 ∧
    (Var.assign { mkVar (.float 7) 100 with hasUpdateFn := true } (.float 7)).updateCalls = 1 :=
  have h := assign_fires_callback_once { mkVar (.float 7) 100 with hasUpdateFn := true }
    (.float 7) rfl
  ⟨h.1, h.2.1⟩

/-- C10 — Registration of a fresh `(group, name)`: afterwards the pair refers to the
variable, the variable's owner is set, every other pair is registered exactly as
before, every other variable is untouched, and nothing is logged. -/
theorem emplace_fresh {F : Type} (w : World F) (var : Nat) (name groupName : String)
    (h : lookup w.bag.mItems groupName name = none) :
    lookup (JsonBag.emplace w var name groupName).bag.mItems groupName name = some var ∧
    ((JsonBag.emplace w var name groupName).heap var).mOwner = true ∧
    (∀ g n, (g, n) ≠ (groupName, name) →
      lookup (JsonBag.emplace w var name groupName).bag.mItems g n = lookup w.bag.mItems g n) ∧
    ((JsonBag.emplace w var name groupName).heap var).mValue = (w.heap var).mValue ∧
    (∀ p, p ≠ var → (JsonBag.emplace w var name groupName).heap p = w.heap p) ∧
    (JsonBag.emplace w var name groupName).log = w.log := by
  obtain ⟨items1, group, hi1, hfind, hnone, hother, hsame⟩ :
      ∃ items1 group, items1 = w.bag.mItems.index groupName [] ∧
        items1.find groupName = some group ∧ group.find name = none ∧
        (∀ g, g ≠ groupName → items1.find g = w.bag.mItems.find g) ∧
        (∀ n, lookup w.bag.mItems groupName n = group.find n) := by
    cases hg : w.bag.mItems.find groupName with
    | none =>
      refine ⟨_, [], rfl, ?_, rfl, ?_, ?_⟩
      · simp [StdMap.index, StdMap.count, hg, StdMap.find_insertNew_self]
      · intro g hne
        simp [StdMap.index, StdMap.count, hg, StdMap.find_insertNew_ne _ _ _ _ hne]
      · intro n
        simp [lookup, hg, StdMap.find]
    | some grp =>
      refine ⟨_, grp, rfl, ?_, ?_, ?_, ?_⟩
      · simp [StdMap.index, StdMap.count, hg]
      · simpa [lookup, hg] using h
      · intro g _
        simp [StdMap.index, StdMap.count, hg]
      · intro n
        simp [lookup, hg]
  have hcount : group.count name = 0 := (StdMap.count_eq_zero_iff _ _).2 hnone
  have hw : JsonBag.emplace w var name groupName =
      { w with
        bag := { w.bag with mItems := items1.assign groupName (group.insertNew name var) }
        heap := setVar w.heap var (w.heap var).setOwner } := by
    simp [JsonBag.emplace, ← hi1, hfind, hcount, StdMap.emplace]
  rw [hw]
  refine ⟨?_, ?_, ?_, ?_, ?_, rfl⟩
  · simp [lookup, StdMap.find_assign_self _ _ _ (by simp [hfind] : items1.find groupName ≠ none),
      StdMap.find_insertNew_self _ _ _ hnone]
  · simp [setVar, Var.setOwner]
  · intro g n hne
    by_cases hg : g = groupName
    · subst hg
      have hn : n ≠ name := fun hn => hne (by rw [hn])
      simp [lookup, StdMap.find_assign_self _ _ _ (by simp [hfind] : items1.find g ≠ none),
        StdMap.find_insertNew_ne _ _ _ _ hn]
      have := hsame n
      simp only [lookup] at this
      exact this.symm
    · simp [lookup, StdMap.find_assign_ne _ _ _ _ hg, hother g hg]
  · simp [setVar, Var.setOwner]
  · intro p hp
    simp [setVar, hp]

/-- Witness for C10: `radius` is registered in the existing group `disk`. -/
theorem emplace_fresh_witness :
    lookup (demoWorld [("disk", [("color", 2)])] demoHeap).bag.mItems "disk" "radius" = none ∧
    lookup (JsonBag.emplace (demoWorld [("disk", [("color", 2)])] demoHeap) 1 "radius"
      "disk").bag.mItems "disk" "radius" = some 1 :=
  ⟨by decide,
    (emplace_fresh (demoWorld [("disk", [("color", 2)])] demoHeap) 1 "radius" "disk"
      (by decide)).1⟩

/-- C2 — Uniqueness: when `(group, name)` is already registered to `v1`, registering
another variable `v2` under the same pair leaves the items map exactly as it was (the
pair still refers to `v1`), leaves every variable untouched (the owner of `v2` is not
set) and logs one error; and, `v2` being registered nowhere, whatever it becomes
afterwards the document a later save builds is the one built without it. -/
theorem emplace_duplicate {F : Type} (lib : Lib F) (w : World F) (v1 v2 : Nat)
    (name groupName : String)
    (h : lookup w.bag.mItems groupName name = some v1) :
    (JsonBag.emplace w v2 name groupName).bag.mItems = w.bag.mItems ∧
    lookup (JsonBag.emplace w v2 name groupName).bag.mItems groupName name = some v1 ∧
    (JsonBag.emplace w v2 name groupName).heap = w.heap ∧
    ((JsonBag.emplace w v2 name groupName).heap v2).mOwner = (w.heap v2).mOwner ∧
    (JsonBag.emplace w v2 name groupName).log = w.log ++
      ["Bag already contains '" ++ name ++ "' in group '" ++ groupName ++ "', not adding."] ∧
    (v2 ∉ registered w.bag.mItems →
      ∀ x : Var F,
        JsonBag.buildDoc lib
            { JsonBag.emplace w v2 name groupName with
              heap := setVar (JsonBag.emplace w v2 name groupName).heap v2 x } =
          JsonBag.buildDoc lib w) := by
  obtain ⟨grp, hg, hn⟩ : ∃ grp, w.bag.mItems.find groupName = some grp ∧
      grp.find name = some v1 := by
    unfold lookup at h
    cases hg : w.bag.mItems.find groupName with
    | none => simp [hg] at h
    | some grp => exact ⟨grp, rfl, by simpa [hg] using h⟩
  have hidx : w.bag.mItems.index groupName [] = w.bag.mItems :=
    StdMap.index_of_find _ _ _ _ hg
  have hcount : grp.count name ≠ 0 := by simp [StdMap.count, hn]
  have hw : JsonBag.emplace w v2 name groupName =
      World.logE w
        ("Bag already contains '" ++ name ++ "' in group '" ++ groupName ++ "', not adding.") := by
    simp only [JsonBag.emplace, hidx, hg, Option.getD_some, hcount, ne_eq, not_false_eq_true,
      if_true]
  rw [hw]
  refine ⟨rfl, h, rfl, rfl, rfl, ?_⟩
  intro hnew x
  rw [buildDoc_eq, buildDoc_eq]
  simp only [World.logE]
  rw [groupNode_congr lib (setVar w.heap v2 x) w.heap w.bag.mItems]
  intro p hp
  have hne : p ≠ v2 := fun hpe => hnew (hpe ▸ hp)
  simp [setVar, hne]

/-- Witness for C2: a second variable is registered as `radius` in group `disk`. -/
theorem emplace_duplicate_witness :
    lookup (demoWorld [("disk", [("radius", 1)])] demoHeap).bag.mItems "disk" "radius" = some 1 ∧
    (JsonBag.emplace (demoWorld [("disk", [("radius", 1)])] demoHeap) 5 "radius"
      "disk").bag.mItems = [("disk", [("radius", 1)])] :=
  ⟨by decide,
    (emplace_duplicate (demoLib JsonTree.empty) (demoWorld [("disk", [("radius", 1)])] demoHeap)
      1 5 "radius" "disk" (by decide)).1⟩

/-- C4 — Atomic skip on parse failure: when the backing file exists and its content
does not parse, load returns normally and leaves every variable exactly as it was:
no value changes and no change callback is invoked. -/
theorem load_parse_failure_keeps_variables {F : Type} (lib : Lib F) (w : World F)
    (text : String) (hfile : w.files w.bag.mJsonFilePath = some text)
    (hparse : lib.parse text = none) :
    (JsonBag.load lib w).exc = none ∧ (JsonBag.load lib w).world.heap = w.heap ∧
      ∀ p, ((JsonBag.load lib w).world.heap p).mValue = (w.heap p).mValue ∧
        ((JsonBag.load lib w).world.heap p).updateCalls = (w.heap p).updateCalls := by
  simp [JsonBag.load, hfile, hparse, World.markLoaded, World.logE]

/-- Witness for C4: the backing file holds text that does not parse. -/
theorem load_parse_failure_keeps_variables_witness :
    ({ demoWorld [("disk", [("radius", 5)])] demoHeap with
        files := fun _ => some "not json" }).files "live_vars.json" = some "not json" ∧
    (demoLib JsonTree.empty).parse "not json" = none ∧
    ((JsonBag.load (demoLib JsonTree.empty)
      { demoWorld [("disk", [("radius", 5)])] demoHeap with
        files := fun _ => some "not json" }).world.heap 5).updateCalls = 0 :=
  ⟨rfl, rfl,
    ((load_parse_failure_keeps_variables (demoLib JsonTree.empty)
      { demoWorld [("disk", [("radius", 5)])] demoHeap with files := fun _ => some "not json" }
      "not json" rfl rfl).2.2 5).2⟩

/-- C6 — at the failing input: the backing file exists and parses to a document whose
item `n` of the registered group `g` holds text that is not a number; the exception
`ExcNonConvertible` leaves load, and `mIsLoaded` stays false. -/
theorem load_bad_item_escapes :
    (JsonBag.load (demoLib badItemDoc)
      (demoWorld [("g", [("m", 4), ("n", 3)])] demoHeap)).exc = some JsonExc.nonConvertible ∧
    (JsonBag.load (demoLib badItemDoc)
      (demoWorld [("g", [("m", 4), ("n", 3)])] demoHeap)).world.bag.mIsLoaded = false := by
  decide

/-- C7 — counterexample: the registry is not loaded, the backing file holds text that
does not parse, and after load the registry is marked as loaded. -/
theorem load_parse_failure_marks_loaded :
    ({ demoWorld [] demoHeap with files := fun _ => some "not json" }).bag.mIsLoaded = false ∧
    ({ demoWorld [] demoHeap with files := fun _ => some "not json" }).files "live_vars.json"
      = some "not json" ∧
    (demoLib JsonTree.empty).parse "not json" = none ∧
    (JsonBag.load (demoLib JsonTree.empty)
      { demoWorld [] demoHeap with
        files := fun _ => some "not json" }).world.bag.mIsLoaded = true :=
  ⟨rfl, rfl, rfl, rfl⟩

/-- C7 (amended) — On a parse failure load returns normally, writes the one error line
`Failed to parse json file.`, sets `mIsLoaded` to true and leaves everything else of
the state as it was: the items map, the schema version, the file path, the live flag,
every variable, the files and the watch subscriptions. -/
theorem load_parse_failure_state {F : Type} (lib : Lib F) (w : World F)
    (text : String) (hfile : w.files w.bag.mJsonFilePath = some text)
    (hparse : lib.parse text = none) :
    (JsonBag.load lib w).exc = none ∧
    (JsonBag.load lib w).world.bag = { w.bag with mIsLoaded := true } ∧
    (JsonBag.load lib w).world.bag.mVersion = w.bag.mVersion ∧
    (JsonBag.load lib w).world.bag.mItems = w.bag.mItems ∧
    (JsonBag.load lib w).world.heap = w.heap ∧
    (JsonBag.load lib w).world.log = w.log ++ ["Failed to parse json file."] ∧
    (JsonBag.load lib w).world.files = w.files ∧
    (JsonBag.load lib w).world.watched = w.watched := by
  simp [JsonBag.load, hfile, hparse, World.markLoaded, World.logE]

/-- Witness for C7 (amended): the backing file holds text that does not parse. -/
theorem load_parse_failure_state_witness :
    ({ demoWorld [] demoHeap with files := fun _ => some "not json" }).files "live_vars.json"
      = some "not json" ∧
    (demoLib JsonTree.empty).parse "not json" = none ∧
    (JsonBag.load (demoLib JsonTree.empty)
      { demoWorld [] demoHeap with files := fun _ => some "not json" }).world.log =
      ["Failed to parse json file."] :=
  ⟨rfl, rfl,
    (load_parse_failure_state (demoLib JsonTree.empty)
      { demoWorld [] demoHeap with files := fun _ => some "not json" } "not json" rfl rfl).2.2.2.2.2.1⟩

/-- C8 — When the backing file exists, save completes, overwrites that file with the
written form of the document, and changes nothing else; the document is the root
holding one array node per registered group in stored order, each holding the
encodings of the group's variables in stored order, followed by one last leaf keyed
`version` with the schema version; the stored orders are ascending by key. -/
theorem save_builds_document {F : Type} (lib : Lib F) (w : World F) (text : String)
    (hfile : w.files w.bag.mJsonFilePath = some text) (hwf : WF w.bag.mItems) :
    (∃ w1, JsonBag.save lib w = some w1 ∧
      w1.files w.bag.mJsonFilePath = some (lib.write (JsonBag.buildDoc lib w)) ∧
      (∀ q, q ≠ w.bag.mJsonFilePath → w1.files q = w.files q) ∧
      w1.bag = w.bag ∧ w1.heap = w.heap ∧ w1.log = w.log) ∧
    JsonBag.buildDoc lib w =
      JsonTree.node "" ""
        (w.bag.mItems.map (fun g =>
            JsonTree.node g.1 "" (g.2.map (fun e => encode lib (w.heap e.2) e.1))) ++
          [JsonTree.node "version" (lib.intToString w.bag.mVersion) []]) ∧
    (w.bag.mItems.map (fun g => (groupNode lib w.heap g).key)).Pairwise
      (fun a b => keyLt a b = true) ∧
    ∀ g ∈ w.bag.mItems,
      ((groupNode lib w.heap g).children.map JsonTree.key).Pairwise
        (fun a b => keyLt a b = true) := by
  refine ⟨?_, ?_, ?_, ?_⟩
  · refine ⟨{ w with files := (fun q =>
        if q = w.bag.mJsonFilePath then some (lib.write (JsonBag.buildDoc lib w))
        else w.files q) }, by simp [JsonBag.save, hfile], by simp, ?_, rfl, rfl, rfl⟩
    intro q hq
    simp [hq]
  · rw [buildDoc_eq]
    rfl
  · have := hwf.1
    simp only [StdMap.Sorted] at this
    simpa [List.pairwise_map, groupNode, JsonTree.key] using this
  · intro g hg
    have := hwf.2 g hg
    simp only [StdMap.Sorted] at this
    simpa [List.pairwise_map, groupNode, JsonTree.children, encode_key] using this

/-- Witness for C8: two groups, one of them with a color and a float. -/
theorem save_builds_document_witness :
    (demoWorld [("default", [("n", 3)]), ("disk", [("color", 2), ("radius", 1)])]
      demoHeap).files "live_vars.json" = some "ok" ∧
    WF (demoWorld [("default", [("n", 3)]), ("disk", [("color", 2), ("radius", 1)])]
      demoHeap).bag.mItems ∧
    JsonBag.buildDoc (demoLib JsonTree.empty)
      (demoWorld [("default", [("n", 3)]), ("disk", [("color", 2), ("radius", 1)])] demoHeap) =
      JsonTree.node "" ""
        [JsonTree.node "default" "" [JsonTree.node "n" "5" []],
          JsonTree.node "disk" ""
            [JsonTree.node "color" ""
              [JsonTree.node "r" "1" [], JsonTree.node "g" "2" [], JsonTree.node "b" "3" []],
             JsonTree.node "radius" "12" []],
          JsonTree.node "version" "0" []] :=
  ⟨rfl, by decide,
    (save_builds_document (demoLib JsonTree.empty)
      (demoWorld [("default", [("n", 3)]), ("disk", [("color", 2), ("radius", 1)])] demoHeap)
      "ok" rfl (by decide)).2.1.trans rfl⟩

/-- C3 — Deregistration: when some registered variable has the storage address, the
items map splits at the first such entry in group-then-name order, and removeTarget
yields exactly the map without that entry and, when its group has no other entry,
without the group; the removed pair is no longer registered, every other pair is
registered as before, no variable is touched and nothing is logged; the document a
later save builds holds exactly the nodes of the remaining groups and entries. -/
theorem removeTarget_removes_first_match {F : Type} (lib : Lib F) (w : World F) (addr : Nat)
    (hwf : WF w.bag.mItems)
    (hex : ∃ q ∈ registered w.bag.mItems, (w.heap q).getTarget = addr) :
    ∃ seen g gseen n p gtodo todo,
      w.bag.mItems = seen ++ (g, gseen ++ (n, p) :: gtodo) :: todo ∧
      (w.heap p).getTarget = addr ∧
      (∀ q ∈ registered seen, (w.heap q).getTarget ≠ addr) ∧
      (∀ e ∈ gseen, (w.heap e.2).getTarget ≠ addr) ∧
      (JsonBag.removeTarget w (some addr)).bag.mItems =
        seen ++ (if gseen ++ gtodo = [] then [] else [(g, gseen ++ gtodo)]) ++ todo ∧
      lookup (JsonBag.removeTarget w (some addr)).bag.mItems g n = none ∧
      (∀ g2 n2, (g2, n2) ≠ (g, n) →
        lookup (JsonBag.removeTarget w (some addr)).bag.mItems g2 n2 =
          lookup w.bag.mItems g2 n2) ∧
      (JsonBag.removeTarget w (some addr)).heap = w.heap ∧
      (JsonBag.removeTarget w (some addr)).log = w.log ∧
      JsonBag.buildDoc lib (JsonBag.removeTarget w (some addr)) =
        JsonTree.node "" ""
          ((seen ++ (if gseen ++ gtodo = [] then [] else [(g, gseen ++ gtodo)]) ++ todo).map
              (groupNode lib w.heap) ++
            [versionLeaf lib w.bag.mVersion]) := by
  obtain ⟨seen, g, gseen, n, p, gtodo, todo, hitems, hp, hs, hgs, hloop⟩ :=
    removeLoop_spec w.heap addr [] w.bag.mItems hex
  simp only [List.nil_append] at hloop
  have hsorted : StdMap.Sorted (seen ++ (g, gseen ++ (n, p) :: gtodo) :: todo) :=
    hitems ▸ hwf.1
  obtain ⟨hga, hgb⟩ := hsorted.keys_ne
  have hinner : StdMap.Sorted (gseen ++ (n, p) :: gtodo) :=
    hwf.2 (g, gseen ++ (n, p) :: gtodo) (by rw [hitems]; simp)
  obtain ⟨hna, hnb⟩ := hinner.keys_ne
  have hres : (JsonBag.removeTarget w (some addr)).bag.mItems =
      seen ++ (if gseen ++ gtodo = [] then [] else [(g, gseen ++ gtodo)]) ++ todo := by
    simp only [JsonBag.removeTarget, hloop]
    by_cases hempty : gseen ++ gtodo = []
    · simp only [hempty, List.isEmpty_nil, if_true, List.append_nil]
      exact StdMap.erase_append_cons seen todo g [] hga
    · have : (gseen ++ gtodo).isEmpty = false := by
        cases hl : gseen ++ gtodo with
        | nil => exact absurd hl hempty
        | cons _ _ => rfl
      simp [this, hempty]
  have hheap : (JsonBag.removeTarget w (some addr)).heap = w.heap := by
    simp only [JsonBag.removeTarget, hloop]
  have hlog : (JsonBag.removeTarget w (some addr)).log = w.log := by
    simp only [JsonBag.removeTarget, hloop]
  have hver : (JsonBag.removeTarget w (some addr)).bag.mVersion = w.bag.mVersion := by
    simp only [JsonBag.removeTarget, hloop]
  refine ⟨seen, g, gseen, n, p, gtodo, todo, hitems, hp, hs, hgs, hres, ?_, ?_, hheap, hlog, ?_⟩
  · rw [hres]
    unfold lookup
    by_cases hempty : gseen ++ gtodo = []
    · simp only [hempty, if_true, List.append_nil]
      rw [StdMap.find_append_none seen todo g hga hgb]
    · simp only [hempty, if_false, List.append_assoc, List.singleton_append]
      rw [StdMap.find_append_cons_self seen todo g _ hga]
      exact StdMap.find_append_none gseen gtodo n hna hnb
  · intro g2 n2 hne
    rw [hres, hitems]
    unfold lookup
    by_cases hg : g2 = g
    · subst hg
      have hn : n2 ≠ n := fun hn => hne (by rw [hn])
      rw [StdMap.find_append_cons_self seen todo g2 _ hga]
      simp only
      rw [StdMap.find_append_cons_ne gseen gtodo n n2 p hn]
      by_cases hempty : gseen ++ gtodo = []
      · simp only [hempty, if_true, List.append_nil]
        rw [StdMap.find_append_none seen todo g2 hga hgb]
        rfl
      · simp only [hempty, if_false, List.append_assoc, List.singleton_append]
        rw [StdMap.find_append_cons_self seen todo g2 _ hga]
    · rw [StdMap.find_append_cons_ne seen todo g g2 _ hg]
      by_cases hempty : gseen ++ gtodo = []
      · simp only [hempty, if_true, List.append_nil]
      · simp only [hempty, if_false, List.append_assoc, List.singleton_append]
        rw [StdMap.find_append_cons_ne seen todo g g2 _ hg]
  · rw [buildDoc_eq, hres, hheap, hver]

/-- Witness for C3: the only variable of group `default` is removed by its address. -/
theorem removeTarget_removes_first_match_witness :
    WF (demoWorld [("default", [("n", 3)]), ("disk", [("color", 2), ("radius", 1)])]
      demoHeap).bag.mItems ∧
    (∃ q ∈ registered (demoWorld [("default", [("n", 3)]),
        ("disk", [("color", 2), ("radius", 1)])] demoHeap).bag.mItems,
      (demoHeap q).getTarget = 103) ∧
    (JsonBag.removeTarget (demoWorld [("default", [("n", 3)]),
        ("disk", [("color", 2), ("radius", 1)])] demoHeap) (some 103)).log = [] :=
  ⟨by decide, ⟨3, by decide, by decide⟩,
    by
      obtain ⟨_, _, _, _, _, _, _, _, _, _, _, _, _, _, _, hlog, _⟩ :=
        removeTarget_removes_first_match (demoLib JsonTree.empty)
          (demoWorld [("default", [("n", 3)]), ("disk", [("color", 2), ("radius", 1)])]
            demoHeap)
          103 (by decide) ⟨3, by decide, by decide⟩
      exact hlog⟩

/-- C5 — counterexample: the item `m` of group `g` is registered and decodes for its
variable, but it follows an item whose text does not convert; load is left by the
exception before reaching it, and the variable keeps its old value 8 instead of 9. -/
theorem load_aborts_before_valid_item :
    lookup (demoWorld [("g", [("m", 4), ("n", 3)])] demoHeap).bag.mItems "g" "m" = some 4 ∧
    (demoHeap 4).decode (demoLib badItemDoc) (JsonTree.node "m" "9" []) = .ok (.int 9) ∧
    ((JsonBag.load (demoLib badItemDoc)
      (demoWorld [("g", [("m", 4), ("n", 3)])] demoHeap)).world.heap 4).mValue = .int 8 ∧
    (JsonBag.load (demoLib badItemDoc)
      (demoWorld [("g", [("m", 4), ("n", 3)])] demoHeap)).world.log = [] :=
  ⟨by decide, rfl, by decide, by decide⟩

/-- C5 (amended) — Partial load tolerance: when the document's version node (if any)
converts and every document item whose group and name are both registered decodes
for its variable, load returns normally; each such item is decoded into its variable,
in document order, whatever unknown groups or items surround it; the error lines
written are exactly one per item of a registered group whose name is not registered
and one per top-level node other than `version` whose key is not a registered group,
in document order; the registry ends up loaded with the items map unchanged. -/
theorem load_partial_tolerance {F : Type} (lib : Lib F) (w : World F) (text : String)
    (doc : JsonTree)
    (hfile : w.files w.bag.mJsonFilePath = some text) (hparse : lib.parse text = some doc)
    (hver : versionReadable lib doc = true)
    (hdec : ∀ t ∈ loadTargets w.bag.mItems doc.children, decodes lib (w.heap t.1) t.2 = true) :
    (JsonBag.load lib w).exc = none ∧
    (JsonBag.load lib w).world.heap =
      applyItems lib (loadTargets w.bag.mItems doc.children) w.heap ∧
    (JsonBag.load lib w).world.log = w.log ++ loadErrors w.bag.mItems doc.children ∧
    (JsonBag.load lib w).world.log.length =
      w.log.length + (unknownItems w.bag.mItems doc.children).length +
        (unknownGroups w.bag.mItems doc.children).length ∧
    (JsonBag.load lib w).world.bag.mItems = w.bag.mItems ∧
    (JsonBag.load lib w).world.bag.mIsLoaded = true := by
  rw [load_of_decodes lib w text doc hfile hparse hver hdec]
  refine ⟨rfl, rfl, rfl, ?_, rfl, rfl⟩
  simp only [List.length_append, loadErrors_length]
  omega

/-- Witness for C5 (amended): a document with one unknown item and one unknown group. -/
theorem load_partial_tolerance_witness :
    (demoWorld [("g", [("m", 4), ("n", 3)])] demoHeap).files "live_vars.json" = some "ok" ∧
    (demoLib tolerantDoc).parse "ok" = some tolerantDoc ∧
    versionReadable (demoLib tolerantDoc) tolerantDoc = true ∧
    (∀ t ∈ loadTargets (demoWorld [("g", [("m", 4), ("n", 3)])] demoHeap).bag.mItems
        tolerantDoc.children,
      decodes (demoLib tolerantDoc) (demoHeap t.1) t.2 = true) ∧
    (JsonBag.load (demoLib tolerantDoc)
      (demoWorld [("g", [("m", 4), ("n", 3)])] demoHeap)).world.log =
      ["No item named zz", "No group named h"] :=
  ⟨rfl, rfl, by decide, by decide,
    (load_partial_tolerance (demoLib tolerantDoc)
      (demoWorld [("g", [("m", 4), ("n", 3)])] demoHeap) "ok" tolerantDoc rfl rfl (by decide)
      (by decide)).2.2.1.trans (by decide)⟩

/-- C1 — counterexample: a group named `version` holds the int variable `n` with
value 5. The document save builds starts with that group's array node, also keyed
`version`; load reads the first node keyed `version` as the schema version, its empty
text does not convert, the exception leaves load, and a fresh variable registered
under the same pair keeps its value 0. -/
theorem roundtrip_fails_for_version_group :
    WF (demoWorld [("version", [("n", 3)])] demoHeap).bag.mItems ∧
    (demoHeap 3).mValue = .int 5 ∧ (freshHeap 3).mValue = .int 0 ∧
    Lossless (demoLib JsonTree.empty) (demoHeap 3).mValue ∧
    (demoLib (JsonBag.buildDoc (demoLib JsonTree.empty)
        (demoWorld [("version", [("n", 3)])] demoHeap))).parse "ok" =
      some (JsonBag.buildDoc (demoLib JsonTree.empty)
        (demoWorld [("version", [("n", 3)])] demoHeap)) ∧
    (JsonBag.load
      (demoLib (JsonBag.buildDoc (demoLib JsonTree.empty)
        (demoWorld [("version", [("n", 3)])] demoHeap)))
      (demoWorld [("version", [("n", 3)])] freshHeap)).exc = some JsonExc.nonConvertible ∧
    ((JsonBag.load
      (demoLib (JsonBag.buildDoc (demoLib JsonTree.empty)
        (demoWorld [("version", [("n", 3)])] demoHeap)))
      (demoWorld [("version", [("n", 3)])] freshHeap)).world.heap 3).mValue ≠
      (demoHeap 3).mValue :=
  ⟨by decide, rfl, rfl, by decide, rfl, by decide, by decide⟩

/-- C1 (amended) — Round-trip: let the registry have no group named `version`, let
every scalar component of every registered value (and the schema version) convert
back from its text form to itself, and let load read the document that save built
into variables registered under the same pairs and of the same types. Then load
returns normally and every registered variable ends with the value it had when the
document was built; the schema version is restored and nothing is logged. -/
theorem save_load_roundtrip {F : Type} (lib : Lib F) (w1 w2 : World F) (text : String)
    (hwf : WF w1.bag.mItems)
    (hnover : w1.bag.mItems.find "version" = none)
    (hlossless : ∀ p ∈ registered w1.bag.mItems, Lossless lib (w1.heap p).mValue)
    (hverback : lib.intFromString (lib.intToString w1.bag.mVersion) = some w1.bag.mVersion)
    (hitems : w2.bag.mItems = w1.bag.mItems)
    (hkind : ∀ p ∈ registered w1.bag.mItems,
      (w2.heap p).mValue.kind = (w1.heap p).mValue.kind)
    (hfile : w2.files w2.bag.mJsonFilePath = some text)
    (hparse : lib.parse text = some (JsonBag.buildDoc lib w1)) :
    (JsonBag.load lib w2).exc = none ∧
    (∀ p ∈ registered w1.bag.mItems,
      ((JsonBag.load lib w2).world.heap p).mValue = (w1.heap p).mValue) ∧
    (JsonBag.load lib w2).world.bag.mVersion = w1.bag.mVersion ∧
    (JsonBag.load lib w2).world.bag.mIsLoaded = true ∧
    (JsonBag.load lib w2).world.log = w2.log := by
  have hkeys : ∀ c ∈ w1.bag.mItems.map (groupNode lib w1.heap), c.key ≠ "version" := by
    intro c hc
    obtain ⟨g, hg, rfl⟩ := List.mem_map.1 hc
    exact StdMap.ne_of_find_none hnover g hg
  have hchildren : (JsonBag.buildDoc lib w1).children =
      w1.bag.mItems.map (groupNode lib w1.heap) ++ [versionLeaf lib w1.bag.mVersion] := by
    rw [buildDoc_eq]
    rfl
  have hfc : JsonTree.findChild (JsonBag.buildDoc lib w1).children "version" =
      some (versionLeaf lib w1.bag.mVersion) := by
    rw [hchildren, findChild_append_of_ne _ _ _ hkeys]
    simp [JsonTree.findChild, versionLeaf, JsonTree.key]
  have htargets : loadTargets w1.bag.mItems (JsonBag.buildDoc lib w1).children =
      (entries w1.bag.mItems).map (fun e => (e.2.2, encode lib (w1.heap e.2.2) e.2.1)) := by
    rw [hchildren, loadTargets_encoded lib w1.heap w1.bag.mItems w1.bag.mItems _
      (fun g hg => ⟨StdMap.find_of_mem_sorted hwf.1 (by simpa using hg), hwf.2 g hg⟩)]
    simp [loadTargets, versionLeaf, JsonTree.key, hnover]
  have herrors : ∀ (sub : StdMap (StdMap Nat)) (tail : List JsonTree),
      (∀ g ∈ sub, w1.bag.mItems.find g.1 = some g.2 ∧ StdMap.Sorted g.2) →
      loadErrors w1.bag.mItems (sub.map (groupNode lib w1.heap) ++ tail) =
        loadErrors w1.bag.mItems tail := by
    intro sub tail hsub
    induction sub with
    | nil => rfl
    | cons g rest ih =>
      obtain ⟨hf, hs⟩ := hsub g (by simp)
      have hnone : itemErrors g.2 (g.2.map (fun e => encode lib (w1.heap e.2) e.1)) = [] := by
        simp only [itemErrors, List.map_eq_nil_iff, List.filter_eq_nil_iff]
        intro c hc
        obtain ⟨e, he, rfl⟩ := List.mem_map.1 hc
        simp [encode_key, StdMap.find_of_mem_sorted hs (by simpa using he)]
      have ih2 := ih (fun g hg => hsub g (by simp [hg]))
      simp only [List.map_cons, List.cons_append, loadErrors, groupNode, JsonTree.key,
        JsonTree.children, hf, hnone, List.nil_append] at ih2 ⊢
      exact ih2
  have hnoerr : loadErrors w1.bag.mItems (JsonBag.buildDoc lib w1).children = [] := by
    rw [hchildren, herrors w1.bag.mItems _
      (fun g hg => ⟨StdMap.find_of_mem_sorted hwf.1 (by simpa using hg), hwf.2 g hg⟩)]
    simp [loadErrors, versionLeaf, JsonTree.key, hnover]
  have hgood : ∀ t ∈ loadTargets w1.bag.mItems (JsonBag.buildDoc lib w1).children,
      t.1 ∈ registered w1.bag.mItems ∧
      ∀ v : Var F, v.mValue.kind = (w1.heap t.1).mValue.kind →
        v.decode lib t.2 = .ok (w1.heap t.1).mValue := by
    intro t ht
    rw [htargets] at ht
    obtain ⟨e, he, rfl⟩ := List.mem_map.1 ht
    have hreg : e.2.2 ∈ registered w1.bag.mItems := List.mem_map.2 ⟨e, he, rfl⟩
    exact ⟨hreg, fun v hv => decode_encode lib _ v e.2.1 hv (hlossless _ hreg)⟩
  have hdec : ∀ t ∈ loadTargets w2.bag.mItems (JsonBag.buildDoc lib w1).children,
      decodes lib (w2.heap t.1) t.2 = true := by
    intro t ht
    rw [hitems] at ht
    obtain ⟨hreg, hd⟩ := hgood t ht
    exact (decodes_iff lib _ _).2 ⟨_, hd _ (hkind _ hreg)⟩
  have hver : versionReadable lib (JsonBag.buildDoc lib w1) = true := by
    simp [versionReadable, hfc, versionLeaf, JsonTree.value, hverback]
  rw [load_of_decodes lib w2 text _ hfile hparse hver hdec]
  refine ⟨rfl, ?_, ?_, rfl, ?_⟩
  · intro p hp
    obtain ⟨e, he, hpe⟩ := List.mem_map.1 hp
    have hmem : (p, encode lib (w1.heap p) e.2.1) ∈
        loadTargets w1.bag.mItems (JsonBag.buildDoc lib w1).children := by
      rw [htargets]
      exact List.mem_map.2 ⟨e, he, by rw [hpe]⟩
    have hvals := (applyItems_values lib w1.heap _ w2.heap (fun t ht => (hgood t ht).2)
      (fun t ht => hkind _ (hgood t ht).1)).1 _ hmem
    simp only [hitems]
    exact hvals
  · simp [readVersion, hfc, versionLeaf, JsonTree.value, hverback]
  · simp [hitems, hnoerr]

/-- Witness for C1 (amended): the document of two groups is loaded into fresh variables. -/
theorem save_load_roundtrip_witness :
    WF (demoWorld [("default", [("n", 3)]), ("disk", [("color", 2), ("radius", 1)])]
      demoHeap).bag.mItems ∧
    StdMap.find (demoWorld [("default", [("n", 3)]), ("disk", [("color", 2), ("radius", 1)])]
      demoHeap).bag.mItems "version" = none ∧
    (∀ p ∈ registered (demoWorld [("default", [("n", 3)]),
        ("disk", [("color", 2), ("radius", 1)])] demoHeap).bag.mItems,
      Lossless (demoLib (JsonBag.buildDoc (demoLib JsonTree.empty)
        (demoWorld [("default", [("n", 3)]), ("disk", [("color", 2), ("radius", 1)])]
          demoHeap))) (demoHeap p).mValue) ∧
    (∀ p ∈ registered (demoWorld [("default", [("n", 3)]),
        ("disk", [("color", 2), ("radius", 1)])] demoHeap).bag.mItems,
      (freshHeap p).mValue.kind = (demoHeap p).mValue.kind) ∧
    ((JsonBag.load
      (demoLib (JsonBag.buildDoc (demoLib JsonTree.empty)
        (demoWorld [("default", [("n", 3)]), ("disk", [("color", 2), ("radius", 1)])]
          demoHeap)))
      (demoWorld [("default", [("n", 3)]), ("disk", [("color", 2), ("radius", 1)])]
        freshHeap)).world.heap 2).mValue = .color 1 2 3 :=
  ⟨by decide, by decide, by decide, by decide,
    (save_load_roundtrip
      (demoLib (JsonBag.buildDoc (demoLib JsonTree.empty)
        (demoWorld [("default", [("n", 3)]), ("disk", [("color", 2), ("radius", 1)])]
          demoHeap)))
      (demoWorld [("default", [("n", 3)]), ("disk", [("color", 2), ("radius", 1)])] demoHeap)
      (demoWorld [("default", [("n", 3)]), ("disk", [("color", 2), ("radius", 1)])] freshHeap)
      "ok" (by decide) (by decide) (by decide) (by decide) rfl (by decide) rfl rfl).2.1 2
      (by decide)⟩

/-- C11 — Destroying a variable whose registration was rejected as a duplicate: the
constructor leaves the owner unset and the items map as it was, and the destructor
then changes nothing at all: the items map, the variable first registered under the
pair and the log (no `Target not found.` line) stay as they were. -/
theorem destroy_rejected_is_noop {F : Type} (w : World F) (v1 v2 : Nat) (value : Value F)
    (addr : Nat) (name groupName : String)
    (h : lookup w.bag.mItems groupName name = some v1) :
    ((Var.construct w v2 value addr name groupName).heap v2).mOwner = false ∧
    (Var.construct w v2 value addr name groupName).bag.mItems = w.bag.mItems ∧
    VarBase.destroy (Var.construct w v2 value addr name groupName) v2 =
      Var.construct w v2 value addr name groupName ∧
    (VarBase.destroy (Var.construct w v2 value addr name groupName) v2).bag.mItems =
      w.bag.mItems ∧
    lookup (VarBase.destroy (Var.construct w v2 value addr name groupName) v2).bag.mItems
      groupName name = some v1 ∧
    (VarBase.destroy (Var.construct w v2 value addr name groupName) v2).log =
      (Var.construct w v2 value addr name groupName).log ∧
    "Target not found." ∉
      ((VarBase.destroy (Var.construct w v2 value addr name groupName) v2).log.drop
        w.log.length) := by
  obtain ⟨grp, hg, hn⟩ : ∃ grp, w.bag.mItems.find groupName = some grp ∧
      grp.find name = some v1 := by
    unfold lookup at h
    cases hg : w.bag.mItems.find groupName with
    | none => simp [hg] at h
    | some grp => exact ⟨grp, rfl, by simpa [hg] using h⟩
  have hidx : w.bag.mItems.index groupName [] = w.bag.mItems :=
    StdMap.index_of_find _ _ _ _ hg
  have hcount : grp.count name ≠ 0 := by simp [StdMap.count, hn]
  have hw : Var.construct w v2 value addr name groupName =
      World.logE
        { w with
          heap := setVar w.heap v2
            { mValue := value, mVoidPtr := addr, mOwner := false, hasUpdateFn := false,
              updateCalls := 0 } }
        ("Bag already contains '" ++ name ++ "' in group '" ++ groupName ++ "', not adding.") := by
    simp only [Var.construct, JsonBag.emplace, hidx, hg, Option.getD_some, hcount, ne_eq,
      not_false_eq_true, if_true]
  have hown : ((Var.construct w v2 value addr name groupName).heap v2).mOwner = false := by
    rw [hw]
    simp [World.logE, setVar]
  have hd : VarBase.destroy (Var.construct w v2 value addr name groupName) v2 =
      Var.construct w v2 value addr name groupName := by
    simp [VarBase.destroy, hown]
  have hitems : (Var.construct w v2 value addr name groupName).bag.mItems = w.bag.mItems := by
    rw [hw]
    rfl
  refine ⟨hown, hitems, hd, ?_, ?_, ?_, ?_⟩
  · rw [hd, hitems]
  · rw [hd, hitems]
    exact h
  · rw [hd]
  · rw [hd, hw]
    simp only [World.logE, List.drop_left, List.mem_singleton]
    intro hs
    have hc := congrArg (fun s => s.data.head?) hs
    simp [String.data_append] at hc

/-- Witness for C11: a second variable is constructed as `radius` in group `disk` and
destroyed again. -/
theorem destroy_rejected_is_noop_witness :
    lookup (demoWorld [("disk", [("radius", 1)])] demoHeap).bag.mItems "disk" "radius" = some 1 ∧
    (VarBase.destroy
      (Var.construct (demoWorld [("disk", [("radius", 1)])] demoHeap) 5 (.float 0) 105 "radius"
        "disk") 5).bag.mItems = [("disk", [("radius", 1)])] :=
  ⟨by decide,
    (destroy_rejected_is_noop (demoWorld [("disk", [("radius", 1)])] demoHeap) 1 5 (.float 0)
      105 "radius" "disk" (by decide)).2.2.2.1⟩

/-- C13 — What a variable writes: `save` appends exactly one node to the tree, keyed
by the name. For bool, int, float and string it is a leaf holding the text of the
value; for a composite it is an array without text whose children are leaves keyed
by the component names in order (vec2 x,y; vec3 x,y,z; vec4 x,y,z,w; quaternion
w,x,y,z; color r,g,b and no alpha), each holding the text of its component. -/
theorem save_appends_encoding {F : Type} (lib : Lib F) (v : Var F) (name : String)
    (tree : JsonTree) :
    v.save lib name tree =
      JsonTree.node tree.key tree.value (tree.children ++ [encode lib v name]) ∧
    (encode lib v name).key = name ∧
    (encode lib v name).value = scalarText lib v.mValue ∧
    (encode lib v name).children.map JsonTree.key = componentNames v.mValue.kind ∧
    (encode lib v name).children.map JsonTree.value =
      (components v.mValue).map lib.floatToString ∧
    (∀ c ∈ (encode lib v name).children, c.children = []) ∧
    (v.mValue.kind = Kind.color →
      (encode lib v name).children.map JsonTree.key = ["r", "g", "b"]) := by
  refine ⟨?_, encode_key lib v name, ?_, ?_, ?_, ?_, ?_⟩
  · rw [Var.save_eq]
    cases tree with
    | node k t cs => rfl
  · unfold encode
    cases v.mValue <;> rfl
  · unfold encode
    cases v.mValue <;> rfl
  · unfold encode
    cases v.mValue <;> rfl
  · unfold encode
    cases v.mValue <;> simp [JsonTree.children]
  · intro hk
    unfold encode
    cases hv : v.mValue <;> simp [hv, Value.kind] at hk
    rfl

/-- C14 — load and save leave the structure of the registry alone: whatever the
backing file holds and however load ends, the items map after load is the items map
before; save runs whenever the backing file exists, and then leaves the bag (items
map, version, loaded flag), every variable, the log and the watch subscriptions
unchanged. -/
theorem load_save_keep_items {F : Type} (lib : Lib F) (w : World F) :
    (JsonBag.load lib w).world.bag.mItems = w.bag.mItems ∧
    (∀ g n, lookup (JsonBag.load lib w).world.bag.mItems g n = lookup w.bag.mItems g n) ∧
    (w.files w.bag.mJsonFilePath ≠ none → (JsonBag.save lib w).isSome = true) ∧
    (∀ w1, JsonBag.save lib w = some w1 →
      w1.bag = w.bag ∧ w1.heap = w.heap ∧ w1.log = w.log ∧ w1.watched = w.watched) := by
  refine ⟨load_items lib w, ?_, ?_, ?_⟩
  · intro g n
    rw [load_items]
  · intro hf
    unfold JsonBag.save
    cases hfile : w.files w.bag.mJsonFilePath with
    | none => exact absurd hfile hf
    | some t => rfl
  · intro w1 hs
    unfold JsonBag.save at hs
    cases hfile : w.files w.bag.mJsonFilePath with
    | none => simp [hfile] at hs
    | some t =>
      simp only [hfile, Option.some.injEq] at hs
      subst hs
      exact ⟨rfl, rfl, rfl, rfl⟩

/-- Witness for C14: save on a state whose backing file exists. -/
theorem load_save_keep_items_witness :
    (JsonBag.save (demoLib JsonTree.empty)
      (demoWorld [("disk", [("radius", 1)])] demoHeap)).isSome = true :=
  (load_save_keep_items (demoLib JsonTree.empty)
    (demoWorld [("disk", [("radius", 1)])] demoHeap)).2.2.1 (by decide)

/-- C17 — When the backing file does not exist, load returns normally and the state
after it is the state before: no value, callback count, items map, version, loaded
flag or log line changes. -/
theorem load_missing_file_is_noop {F : Type} (lib : Lib F) (w : World F)
    (hfile : w.files w.bag.mJsonFilePath = none) :
    JsonBag.load lib w = ⟨w, none⟩ ∧
    (JsonBag.load lib w).world.heap = w.heap ∧
    (JsonBag.load lib w).world.bag = w.bag ∧
    (JsonBag.load lib w).world.log = w.log := by
  simp [JsonBag.load, hfile]

/-- Witness for C17: the state at process start has no backing file. -/
theorem load_missing_file_is_noop_witness :
    startWorld.files startWorld.bag.mJsonFilePath = none ∧
    (JsonBag.load (demoLib JsonTree.empty) startWorld).world.bag.mIsLoaded = false :=
  ⟨rfl, by
    rw [(load_missing_file_is_noop (demoLib JsonTree.empty) startWorld rfl).1]
    rfl⟩

/-- C19 — Per-variable decode is all-or-nothing: when a required component of a
composite is missing from the node or does not convert, or the text of a scalar does
not convert, `Var<T>::load` ends by an exception, and the load loop that reached the
item stops in the very state it had before the item: no component of the value is
changed and no callback is invoked. -/
theorem decode_all_or_nothing {F : Type} (lib : Lib F) (w : World F)
    (groupItems : StdMap Nat) (item : JsonTree) (rest : List JsonTree) (p : Nat)
    (hfind : groupItems.find item.key = some p)
    (hbad : (∃ k ∈ componentNames (w.heap p).mValue.kind, componentOk lib item k = false) ∨
      scalarOk lib (w.heap p).mValue.kind item = false) :
    ∃ e, (w.heap p).load lib item = .error e ∧
      loadItems lib groupItems (item :: rest) w = ⟨w, some e⟩ ∧
      ((loadItems lib groupItems (item :: rest) w).world.heap p).mValue = (w.heap p).mValue ∧
      ((loadItems lib groupItems (item :: rest) w).world.heap p).updateCalls =
        (w.heap p).updateCalls := by
  obtain ⟨e, he⟩ := decode_error lib (w.heap p) item hbad
  have hl : (w.heap p).load lib item = .error e := by simp [Var.load, he]
  have hi : loadItems lib groupItems (item :: rest) w = ⟨w, some e⟩ := by
    simp [loadItems, hfind, hl]
  exact ⟨e, hl, hi, by rw [hi], by rw [hi]⟩

/-- Witness for C19: a color variable and a node without the component `g`. -/
theorem decode_all_or_nothing_witness :
    StdMap.find [("color", 2)] noGreenItem.key = some 2 ∧
    ((∃ k ∈ componentNames (demoHeap 2).mValue.kind,
        componentOk (demoLib JsonTree.empty) noGreenItem k = false) ∨
      scalarOk (demoLib JsonTree.empty) (demoHeap 2).mValue.kind noGreenItem = false) ∧
    ∃ e, (demoHeap 2).load (demoLib JsonTree.empty) noGreenItem = .error e :=
  ⟨by decide, Or.inl ⟨"g", by decide, by decide⟩,
    by
      obtain ⟨e, he, _⟩ := decode_all_or_nothing (demoLib JsonTree.empty)
        (demoWorld [("disk", [("color", 2)])] demoHeap) [("color", 2)] noGreenItem [] 2
        (by decide) (Or.inl ⟨"g", by decide, by decide⟩)
      exact ⟨e, he⟩⟩

/-- C15 — counterexample: at process start the stored path is empty and live mode is
on; setFilepath with the empty path, equal to the stored one, does not return early
and subscribes the Watch Service to that path. -/
theorem setFilepath_empty_path_subscribes :
    startWorld.bag.mJsonFilePath = "" ∧ startWorld.watched = [] ∧
    (JsonBag.setFilepath demoCanCreate startWorld "").watched = [""] := by
  decide

/-- C15 (amended) — For every state whose stored file path is not empty and every
path equal to it, setFilepath changes nothing: the stored path, the file system and
the watch subscriptions are as before, and no subscribe call is issued. -/
theorem setFilepath_same_path_is_noop {F : Type} (canCreate : String → Bool) (w : World F)
    (path : String) (hne : w.bag.mJsonFilePath ≠ "") (hsame : path = w.bag.mJsonFilePath) :
    JsonBag.setFilepath canCreate w path = w ∧
    (JsonBag.setFilepath canCreate w path).bag.mJsonFilePath = w.bag.mJsonFilePath ∧
    (JsonBag.setFilepath canCreate w path).files = w.files ∧
    (JsonBag.setFilepath canCreate w path).watched = w.watched := by
  have h : JsonBag.setFilepath canCreate w path = w := by
    simp [JsonBag.setFilepath, hne, hsame]
  rw [h]
  exact ⟨rfl, rfl, rfl, rfl⟩

/-- Witness for C15 (amended): the path `live_vars.json` is set a second time. -/
theorem setFilepath_same_path_is_noop_witness :
    (demoWorld [] demoHeap).bag.mJsonFilePath ≠ "" ∧
    (JsonBag.setFilepath demoCanCreate (demoWorld [] demoHeap) "live_vars.json").watched = [] :=
  ⟨by decide,
    (setFilepath_same_path_is_noop demoCanCreate (demoWorld [] demoHeap) "live_vars.json"
      (by decide) rfl).2.2.2⟩

section WatchFacts

variable {F : Type}

theorem liveOp_keeps_watch_inv (canCreate : String → Bool) (w : World F) (op : LiveOp)
    (h : w.watched ≠ [] → w.bag.mIsLive = true) :
    (LiveOp.apply canCreate w op).watched ≠ [] →
      (LiveOp.apply canCreate w op).bag.mIsLive = true := by
  cases op with
  | setFilepath path =>
    simp only [LiveOp.apply, JsonBag.setFilepath]
    split
    · exact h
    · cases hf : w.files path with
      | some t =>
        simp only [hf]
        cases hl : w.bag.mIsLive with
        | true => simp [wdWatch, hl]
        | false =>
          simp only [hl, Bool.false_eq_true, if_false]
          intro hw
          have := h hw
          simp [hl] at this
      | none =>
        simp only [hf]
        cases hcr : canCreate path <;> cases hl : w.bag.mIsLive <;>
          simp only [hl, Bool.false_eq_true, if_false, if_true] <;>
          first
            | (intro hw
               have := h hw
               simp [hl] at this)
            | simp [wdWatch, hl]
  | setIsLive live =>
    cases live <;> simp [LiveOp.apply, JsonBag.setIsLive, wdUnwatchAll]
  | unwatch =>
    simp only [LiveOp.apply, JsonBag.unwatch]
    cases hl : w.bag.mIsLive with
    | true => simp [wdUnwatch, hl]
    | false =>
      simp only [Bool.false_eq_true, if_false]
      intro hw
      have := h hw
      simp [hl] at this

theorem runLive_keeps_watch_inv (canCreate : String → Bool) (ops : List LiveOp) (w : World F)
    (h : w.watched ≠ [] → w.bag.mIsLive = true) :
    (runLive canCreate w ops).watched ≠ [] → (runLive canCreate w ops).bag.mIsLive = true := by
  induction ops generalizing w with
  | nil => exact h
  | cons op rest ih =>
    exact ih (LiveOp.apply canCreate w op) (liveOp_keeps_watch_inv canCreate w op h)

end WatchFacts

/-- C16 — counterexample: from process start, live mode is turned off, a path is set
and live mode is turned on again; a file path has been set and `mIsLive` is true, but
the Watch Service holds no subscription. Likewise after setting a path in live mode
and calling unwatch. -/
theorem live_without_subscription :
    (runLive demoCanCreate startWorld
      [.setIsLive false, .setFilepath "a.json", .setIsLive true]).bag.mJsonFilePath = "a.json" ∧
    (runLive demoCanCreate startWorld
      [.setIsLive false, .setFilepath "a.json", .setIsLive true]).bag.mIsLive = true ∧
    (runLive demoCanCreate startWorld
      [.setIsLive false, .setFilepath "a.json", .setIsLive true]).watched = [] ∧
    (runLive demoCanCreate startWorld [.setFilepath "a.json", .unwatch]).bag.mIsLive = true ∧
    (runLive demoCanCreate startWorld [.setFilepath "a.json", .unwatch]).watched = [] := by
  decide

/-- C16 (amended) — In every state reached from a state without subscriptions by
setFilepath, setIsLive and unwatch calls, the Watch Service holds a subscription (for
the backing file path or any other) only when `mIsLive` is true. Turning live mode
off removes every subscription; turning it on sets the flag and subscribes nothing. -/
theorem subscription_implies_live {F : Type} (canCreate : String → Bool) (w0 : World F)
    (ops : List LiveOp) (h0 : w0.watched = []) :
    ((runLive canCreate w0 ops).bag.mJsonFilePath ∈ (runLive canCreate w0 ops).watched →
      (runLive canCreate w0 ops).bag.mIsLive = true) ∧
    ((runLive canCreate w0 ops).watched ≠ [] →
      (runLive canCreate w0 ops).bag.mIsLive = true) ∧
    (JsonBag.setIsLive (runLive canCreate w0 ops) false).watched = [] ∧
    (JsonBag.setIsLive (runLive canCreate w0 ops) true).watched =
      (runLive canCreate w0 ops).watched := by
  have hinv := runLive_keeps_watch_inv canCreate ops w0 (fun h => absurd h0 h)
  refine ⟨?_, hinv, ?_, ?_⟩
  · intro hmem
    exact hinv (List.ne_nil_of_mem hmem)
  · simp [JsonBag.setIsLive, wdUnwatchAll]
  · simp [JsonBag.setIsLive]

/-- Witness for C16 (amended): a path is set in live mode, then live mode is turned
off. -/
theorem subscription_implies_live_witness :
    startWorld.watched = [] ∧
    (runLive demoCanCreate startWorld [.setFilepath "a.json"]).watched = ["a.json"] ∧
    (runLive demoCanCreate startWorld [.setFilepath "a.json"]).bag.mIsLive = true :=
  ⟨rfl, by decide,
    (subscription_implies_live demoCanCreate startWorld [.setFilepath "a.json"] rfl).2.1
      (by decide)⟩

/-- C12 — Registry invariant: in every state reached from a registry without items by
emplace and removeTarget calls (the application changing its variables at will in
between), every group of the items map holds at least one variable; a rejected
duplicate registration and a removal that finds nothing are among the calls. The
`std::map` ordering of the items map is kept as well. -/
theorem reachable_groups_nonempty {F : Type} (w0 : World F) (ops : List (RegOp F))
    (h0 : w0.bag.mItems = []) :
    (∀ e ∈ (runOps w0 ops).bag.mItems, e.2 ≠ []) ∧ WF (runOps w0 ops).bag.mItems := by
  have hinv : RegInv w0.bag.mItems := by
    rw [h0]
    exact ⟨⟨by simp [StdMap.Sorted], by simp⟩, by simp⟩
  exact ⟨(runOps_inv ops w0 hinv).2, (runOps_inv ops w0 hinv).1⟩

/-- Witness for C12: two registrations, a rejected duplicate, a removal that finds
nothing and the removal of the only variable of a group. -/
theorem reachable_groups_nonempty_witness :
    startWorld.bag.mItems = [] ∧
    (runOps startWorld
      [.emplace 1 "radius" "disk", .emplace 3 "n" "default", .emplace 5 "radius" "disk",
        .removeTarget (some 999), .removeTarget (some 103)]).bag.mItems =
      [("disk", [("radius", 1)])] ∧
    ∀ e ∈ (runOps startWorld
      [.emplace 1 "radius" "disk", .emplace 3 "n" "default", .emplace 5 "radius" "disk",
        .removeTarget (some 999), .removeTarget (some 103)]).bag.mItems, e.2 ≠ [] :=
  ⟨rfl, by decide,
    (reachable_groups_nonempty startWorld
      [.emplace 1 "radius" "disk", .emplace 3 "n" "default", .emplace 5 "radius" "disk",
        .removeTarget (some 999), .removeTarget (some 103)] rfl).1⟩

theorem emplace_removeTarget_items {F : Type} (w : World F) (var : Nat) (name g : String)
    (hfresh : lookup w.bag.mItems g name = none)
    (haddr : ∀ q ∈ registered w.bag.mItems, (w.heap q).getTarget ≠ (w.heap var).getTarget)
    (hne : ∀ e ∈ w.bag.mItems, e.2 ≠ []) :
    (JsonBag.removeTarget (JsonBag.emplace w var name g)
      (some (w.heap var).getTarget)).bag.mItems = w.bag.mItems ∧
    (w.bag.mItems.find g = none →
      (JsonBag.removeTarget (JsonBag.emplace w var name g)
        (some (w.heap var).getTarget)).bag.mItems.find g = none) ∧
    (JsonBag.removeTarget (JsonBag.emplace w var name g)
      (some (w.heap var).getTarget)).log = w.log := by
  obtain ⟨a, b, grp, ha, hn, hcase, hw⟩ := emplace_fresh_split w var name g hfresh
  have htarget : ∀ q, (setVar w.heap var (w.heap var).setOwner q).getTarget =
      (w.heap q).getTarget := by
    intro q
    by_cases hq : q = var
    · subst hq
      simp [setVar, Var.setOwner, Var.getTarget]
    · simp [setVar, hq]
  have hsub : ∀ q, q ∈ registered a ∨ q ∈ grp.map Prod.snd →
      q ∈ registered w.bag.mItems := by
    intro q hq
    rcases hcase with ⟨_, hab, hge, _⟩ | hab
    · rw [hab, registered_append]
      rcases hq with hq | hq
      · exact List.mem_append_left _ hq
      · simp [hge] at hq
    · rw [hab, registered_append, registered_cons]
      rcases hq with hq | hq
      · exact List.mem_append_left _ hq
      · exact List.mem_append_right _ (List.mem_append_left _ hq)
  have hera : eraseTarget (setVar w.heap var (w.heap var).setOwner) (w.heap var).getTarget
      (grp.insertNew name var) = some grp := by
    apply eraseTarget_insertNew
    · exact htarget var
    · intro e he
      rw [htarget]
      exact haddr e.2 (hsub e.2 (Or.inr (List.mem_map.2 ⟨e, he, rfl⟩)))
  have hloop := removeLoop_at (setVar w.heap var (w.heap var).setOwner)
    (w.heap var).getTarget [] a b g (grp.insertNew name var) grp
    (fun q hq => by rw [htarget]; exact haddr q (hsub q (Or.inl hq))) hera
  have hitems : (JsonBag.removeTarget (JsonBag.emplace w var name g)
      (some (w.heap var).getTarget)).bag.mItems = w.bag.mItems ∧
      (JsonBag.removeTarget (JsonBag.emplace w var name g)
      (some (w.heap var).getTarget)).log = w.log := by
    rw [hw]
    simp only [JsonBag.removeTarget, hloop, List.nil_append]
    rcases hcase with ⟨_, hab, hge, _⟩ | hab
    · subst hge
      simp only [List.isEmpty_nil, if_true]
      rw [StdMap.erase_append_cons a b g [] ha, hab]
      exact ⟨rfl, trivial⟩
    · have hgne : grp ≠ [] := hne (g, grp) (by rw [hab]; simp)
      have : grp.isEmpty = false := by
        cases hl : grp with
        | nil => exact absurd hl hgne
        | cons _ _ => rfl
      simp only [this, Bool.false_eq_true, if_false]
      rw [hab]
      exact ⟨rfl, trivial⟩
  refine ⟨hitems.1, ?_, hitems.2⟩
  intro hf
  rw [hitems.1]
  exact hf

/-- C20 — Register-then-deregister is the identity on the items map: in every state
reached from a registry without items by emplace and removeTarget calls, registering
a variable under a pair that is not registered and whose storage address is that of
no registered variable, then removing that address, gives back the items map exactly
(a group that did not exist before is absent again); nothing is logged. -/
theorem emplace_then_removeTarget {F : Type} (w0 : World F) (ops : List (RegOp F))
    (var : Nat) (name g : String)
    (h0 : w0.bag.mItems = [])
    (hfresh : lookup (runOps w0 ops).bag.mItems g name = none)
    (haddr : ∀ q ∈ registered (runOps w0 ops).bag.mItems,
      ((runOps w0 ops).heap q).getTarget ≠ ((runOps w0 ops).heap var).getTarget) :
    (JsonBag.removeTarget (JsonBag.emplace (runOps w0 ops) var name g)
      (some ((runOps w0 ops).heap var).getTarget)).bag.mItems = (runOps w0 ops).bag.mItems ∧
    ((runOps w0 ops).bag.mItems.find g = none →
      (JsonBag.removeTarget (JsonBag.emplace (runOps w0 ops) var name g)
        (some ((runOps w0 ops).heap var).getTarget)).bag.mItems.find g = none) ∧
    (JsonBag.removeTarget (JsonBag.emplace (runOps w0 ops) var name g)
      (some ((runOps w0 ops).heap var).getTarget)).log = (runOps w0 ops).log := by
  have hinv : RegInv w0.bag.mItems := by
    rw [h0]
    exact ⟨⟨by simp [StdMap.Sorted], by simp⟩, by simp⟩
  exact emplace_removeTarget_items (runOps w0 ops) var name g hfresh haddr
    (runOps_inv ops w0 hinv).2

/-- Witness for C20: after `n` is registered in group `default`, `radius` is registered
in the new group `disk` and removed again. -/
theorem emplace_then_removeTarget_witness :
    startWorld.bag.mItems = [] ∧
    lookup (runOps startWorld [.emplace 3 "n" "default"]).bag.mItems "disk" "radius" = none ∧
    (∀ q ∈ registered (runOps startWorld [.emplace 3 "n" "default"]).bag.mItems,
      ((runOps startWorld [.emplace 3 "n" "default"]).heap q).getTarget ≠
        ((runOps startWorld [.emplace 3 "n" "default"]).heap 1).getTarget) ∧
    (JsonBag.removeTarget
      (JsonBag.emplace (runOps startWorld [.emplace 3 "n" "default"]) 1 "radius" "disk")
      (some ((runOps startWorld [.emplace 3 "n" "default"]).heap 1).getTarget)).bag.mItems =
      (runOps startWorld [.emplace 3 "n" "default"]).bag.mItems :=
  ⟨rfl, by decide, by decide,
    (emplace_then_removeTarget startWorld [.emplace 3 "n" "default"] 1 "radius" "disk"
      rfl (by decide) (by decide)).1⟩

end CinderVar
